import Mathlib

/-!
Verification of the translation/dispatch core of an OpenAPI-to-MCP adapter
(`utils/adapter.go`): the tool-name sanitizer `sanitizeToolName`, the schema
translator `NewMCPFromCustomParser`, and the request dispatcher
`NewToolHandler`.

Strings are modelled as `List Char` (`Str`).  Go's byte strings are ASCII in
every code path the adapter manipulates; `strings.ToLower` is modelled
char-wise by `Char.toLower` (they agree on ASCII).  All string routines are
written with explicit fuel so that they are structural recursions the kernel
can evaluate (`decide` works on concrete inputs); a fuel of `s.length` is
always sufficient, which the lemmas below establish where needed.
-/

abbrev Str := List Char

/-- Shorthand turning a Lean string literal into the `List Char` model. -/
def S (s : String) : Str := s.data

/-! ### Basic string routines (models of the `strings` package functions used) -/

/-- Model of `strings.HasPrefix pat ⊑ s` on `List Char`. -/
def isPre : Str → Str → Bool
  | [], _ => true
  | _ :: _, [] => false
  | p :: ps, c :: cs => p == c && isPre ps cs

/-- Model of `strings.Contains s pat`. -/
def containsSub (s pat : Str) : Bool :=
  match s with
  | [] => isPre pat []
  | c :: cs => isPre pat (c :: cs) || containsSub cs pat

/-- Fuel-driven worker for `strings.ReplaceAll`.  Fuel `≥ s.length` makes it
compute the real (left-to-right, non-overlapping) replacement; every call
site uses `replaceAll`, which supplies that much fuel.  The source never
calls `ReplaceAll` with an empty pattern, so that case is guarded out. -/
def replaceAllF : Nat → Str → Str → Str → Str
  | _, _, _, [] => []
  | 0, _, _, s => s
  | f + 1, pat, rep, c :: cs =>
    if isPre pat (c :: cs) && !(pat.isEmpty) then
      rep ++ replaceAllF f pat rep ((c :: cs).drop pat.length)
    else
      c :: replaceAllF f pat rep cs

/-- Model of `strings.ReplaceAll s pat rep` (for nonempty `pat`). -/
def replaceAll (s pat rep : Str) : Str := replaceAllF s.length pat rep s

/-- Greedy left-to-right split of `s` at the non-overlapping occurrences of
`pat`: the list of the fragments between consecutive occurrences.  Used to
state what `replaceAll` does to every occurrence. -/
def splitOnPatF : Nat → Str → Str → List Str
  | _, _, [] => [[]]
  | 0, _, s => [s]
  | f + 1, pat, c :: cs =>
    if isPre pat (c :: cs) && !(pat.isEmpty) then
      [] :: splitOnPatF f pat ((c :: cs).drop pat.length)
    else
      match splitOnPatF f pat cs with
      | [] => [[c]]
      | p :: ps => (c :: p) :: ps

def splitOnPat (s pat : Str) : List Str := splitOnPatF s.length pat s

/-- Join a list of fragments with a separator (inverse of `splitOnPat`). -/
def joinWith (sep : Str) : List Str → Str
  | [] => []
  | [p] => p
  | p :: ps => p ++ sep ++ joinWith sep ps

/-- Model of `strings.ToLower` (char-wise; agrees with Go on ASCII input). -/
def toLowerStr (s : Str) : Str := s.map Char.toLower

/-- Model of `strings.HasSuffix s "_"`. -/
def hasSuffixUnd (s : Str) : Bool := isPre ['_'] s.reverse

/-- Model of `strings.TrimSuffix s "_"` (drop one trailing underscore). -/
def trimTrailUnd (s : Str) : Str := if hasSuffixUnd s then s.dropLast else s

/-- Model of `strings.TrimPrefix s "_"` (drop one leading underscore). -/
def trimLeadUnd (s : Str) : Str := if isPre ['_'] s then s.drop 1 else s

/-- One iteration of the collapse loop body: `ReplaceAll s "__" "_"`. -/
def collapseStep (s : Str) : Str := replaceAll s ['_', '_'] ['_']

/-- Fuel-driven model of the loop
`for strings.Contains(s, "__") { s = strings.ReplaceAll(s, "__", "_") }`.
Each iteration with an occurrence strictly shrinks the string, so fuel
`s.length` suffices (proved below). -/
def collapseF : Nat → Str → Str
  | 0, s => s
  | f + 1, s => if containsSub s ['_', '_'] then collapseF f (collapseStep s) else s

def collapseUnd (s : Str) : Str := collapseF s.length s

/-! ### The name sanitizer (`sanitizeToolName`, adapter.go lines 33-55) -/

/-- The replacement phase of `sanitizeToolName` (adapter.go lines 34-45):
lowercase, then the eleven `strings.ReplaceAll` calls in source order. -/
def sanitizeReplaced (name : Str) : Str :=
  let s0 := toLowerStr name
  let s1 := replaceAll s0 [' '] ['_']
  let s2 := replaceAll s1 ['-'] ['_']
  let s3 := replaceAll s2 ['/'] ['_']
  let s4 := replaceAll s3 ['.'] ['_']
  let s5 := replaceAll s4 ['\x7b'] []
  let s6 := replaceAll s5 ['\x7d'] []
  let s7 := replaceAll s6 [':'] ['_']
  let s8 := replaceAll s7 ['?'] []
  let s9 := replaceAll s8 ['&'] (S "and")
  let s10 := replaceAll s9 ['='] (S "_eq_")
  replaceAll s10 ['%'] (S "_pct_")

/-- The trimming phase of `sanitizeToolName` (lines 46-50): collapse runs of
underscores, then trim one trailing and one leading underscore. -/
def sanitizeTrimmed (name : Str) : Str :=
  trimLeadUnd (trimTrailUnd (collapseUnd (sanitizeReplaced name)))

/-- Model of `sanitizeToolName`: lowercase, replace separators by `_`, delete
braces and `?`, spell out `&`, `=`, `%`, collapse runs of underscores, trim
one leading/trailing underscore, and fall back to `"unnamed_tool"`. -/
def sanitizeToolName (name : Str) : Str :=
  if sanitizeTrimmed name = [] then S "unnamed_tool" else sanitizeTrimmed name

/-- The characters `sanitizeToolName` replaces or deletes, in source order. -/
def sanitizeSpecials : Str := [' ', '-', '/', '.', '\x7b', '\x7d', ':', '?', '&', '=', '%']

/-- Every character of `s` is fixed by lowercasing (used to show the second
sanitizer pass is the identity). -/
def lowerFixed (s : Str) : Prop := ∀ c ∈ s, c.toLower = c

instance instDecidableLowerFixed (s : Str) : Decidable (lowerFixed s) :=
  List.decidableBAll _ s

/-- Claim C3 as stated by the spec: the sanitizer output consists only of
lowercase ASCII letters, digits and single `_` separators, never starts or
ends with `_`, and never contains `__`.  (Refuted below: characters outside
the replaced set pass through unchanged.) -/
def sanitaryOutputClaim (s : Str) : Prop :=
  (∀ c ∈ s, ('a' ≤ c ∧ c ≤ 'z') ∨ ('0' ≤ c ∧ c ≤ '9') ∨ c = '_') ∧
  isPre ['_'] s = false ∧ hasSuffixUnd s = false ∧ containsSub s ['_', '_'] = false

/-! ### Values: the model of Go `interface{}` invocation arguments (spec §9) -/

/-- A loosely-typed invocation value: string, number, boolean, null, nested
key/value map, or array (the JSON-shaped values the MCP transport hands to
the handler after deserialisation). -/
inductive GoValue where
  | str (s : Str)
  | num (n : Int)
  | boolean (b : Bool)
  | null
  | obj (fields : List (Str × GoValue))
  | arr (elems : List GoValue)

def digitChar (d : Nat) : Char := Char.ofNat (48 + d)

def natToStrF : Nat → Nat → Str
  | 0, _ => []
  | f + 1, n => if n < 10 then [digitChar n] else natToStrF f (n / 10) ++ [digitChar (n % 10)]

def natToStr (n : Nat) : Str := natToStrF (n + 1) n

/-- Decimal rendering of an integer (as Go `fmt`/`strconv` produce it). -/
def intToStr (n : Int) : Str :=
  if n < 0 then '-' :: natToStr n.natAbs else natToStr n.natAbs

/-- Byte-wise lexicographic string order (Go `sort.Strings` order). -/
def strLeB : Str → Str → Bool
  | [], _ => true
  | _ :: _, [] => false
  | a :: as, b :: bs =>
    if a.toNat < b.toNat then true
    else if b.toNat < a.toNat then false
    else strLeB as bs

/-- Key order used for map rendering: byte-wise `≤` on the key. -/
def keyLe {α : Type} (x y : Str × α) : Prop := strLeB x.1 y.1 = true

instance instDecKeyLe {α : Type} : DecidableRel (keyLe (α := α)) := fun x y => by
  unfold keyLe
  infer_instance

/-- Sort an association list by key (Go map iteration is unordered; `fmt`,
`encoding/json` and `url.Values.Encode` all emit map keys sorted, as
`sort.Strings` would). -/
def sortByKey {α : Type} (l : List (Str × α)) : List (Str × α) :=
  List.insertionSort keyLe l

def joinSp (parts : List Str) : Str := joinWith [' '] parts

mutual

/-- Model of `fmt.Sprintf("%v", v)` — the generic to-string conversion of
the handler's default switch case.  Fields are rendered first and the
key/text pairs sorted afterwards, which agrees with Go's sorted map
rendering.  (No claim depends on its exact output beyond primitive values;
it stands for "the generic to-string conversion".) -/
def goFmt : GoValue → Str
  | .str s => s
  | .num n => intToStr n
  | .boolean b => if b then S "true" else S "false"
  | .null => S "<nil>"
  | .obj fields =>
    S "map[" ++ joinSp ((sortByKey (goFmtFields fields)).map fun kv => kv.1 ++ ':' :: kv.2)
      ++ S "]"
  | .arr elems => S "[" ++ joinSp (goFmtElems elems) ++ S "]"

def goFmtFields : List (Str × GoValue) → List (Str × Str)
  | [] => []
  | (k, v) :: rest => (k, goFmt v) :: goFmtFields rest

def goFmtElems : List GoValue → List Str
  | [] => []
  | v :: rest => goFmt v :: goFmtElems rest

end

def hexDigitUpper (d : Nat) : Char :=
  if d < 10 then Char.ofNat (48 + d) else Char.ofNat (55 + d)

def hexDigitLower (d : Nat) : Char :=
  if d < 10 then Char.ofNat (48 + d) else Char.ofNat (87 + d)

/-- JSON string-character escaping as Go `encoding/json` produces by
default: quote, backslash, common controls, HTML-unsafe characters and
other controls as `\u00xx`. -/
def jsonEscapeChar (c : Char) : Str :=
  if c = '"' then ['\\', '"']
  else if c = '\\' then ['\\', '\\']
  else if c = '\n' then ['\\', 'n']
  else if c = '\r' then ['\\', 'r']
  else if c = '\t' then ['\\', 't']
  else if c = '<' ∨ c = '>' ∨ c = '&' ∨ c.toNat < 32 then
    ['\\', 'u', '0', '0', hexDigitLower (c.toNat / 16), hexDigitLower (c.toNat % 16)]
  else [c]

def jsonString (s : Str) : Str :=
  '"' :: s.foldr (fun c acc => jsonEscapeChar c ++ acc) ['"']

mutual

/-- Model of `json.Marshal` on the values above (total: every `GoValue` is
JSON-encodable; map keys come out sorted as Go produces them — fields are
rendered first and the key/text pairs sorted afterwards, which gives the
same output). -/
def jsonMarshal : GoValue → Str
  | .str s => jsonString s
  | .num n => intToStr n
  | .boolean b => if b then S "true" else S "false"
  | .null => S "null"
  | .obj fields =>
    '\x7b' :: joinWith [',']
      ((sortByKey (jsonMarshalFields fields)).map fun kv => jsonString kv.1 ++ ':' :: kv.2)
      ++ ['\x7d']
  | .arr elems => '[' :: joinWith [','] (jsonMarshalElems elems) ++ [']']

def jsonMarshalFields : List (Str × GoValue) → List (Str × Str)
  | [] => []
  | (k, v) :: rest => (k, jsonMarshal v) :: jsonMarshalFields rest

def jsonMarshalElems : List GoValue → List Str
  | [] => []
  | v :: rest => jsonMarshal v :: jsonMarshalElems rest

end

/-! ### Query-string machinery (models of the `net/url` routines used) -/

/-- `url.Values`: key to the list of values added under it. -/
abbrev QueryValues := List (Str × List Str)

/-- Model of `url.Values.Add`: append the value under the key. -/
def valuesAdd (q : QueryValues) (k v : Str) : QueryValues :=
  if q.any fun e => e.1 == k then
    q.map fun e => if e.1 == k then (e.1, e.2 ++ [v]) else e
  else q ++ [(k, [v])]

def isUnreservedQ (c : Char) : Bool :=
  (65 ≤ c.toNat && c.toNat ≤ 90) || (97 ≤ c.toNat && c.toNat ≤ 122) ||
    (48 ≤ c.toNat && c.toNat ≤ 57) || c == '-' || c == '_' || c == '.' || c == '~'

/-- UTF-8 byte sequence of a character (Go strings are byte slices; escaping
works byte-wise). -/
def utf8Bytes (c : Char) : List Nat :=
  let n := c.toNat
  if n < 128 then [n]
  else if n < 2048 then [192 + n / 64, 128 + n % 64]
  else if n < 65536 then [224 + n / 4096, 128 + (n / 64) % 64, 128 + n % 64]
  else [240 + n / 262144, 128 + (n / 4096) % 64, 128 + (n / 64) % 64, 128 + n % 64]

def percentByte (b : Nat) : Str := ['%', hexDigitUpper (b / 16), hexDigitUpper (b % 16)]

/-- Model of `url.QueryEscape`: unreserved characters kept, space as `+`,
everything else percent-encoded byte-wise with uppercase hex. -/
def queryEscape (s : Str) : Str :=
  s.foldr
    (fun c acc =>
      (if isUnreservedQ c then [c]
       else if c = ' ' then ['+']
       else (utf8Bytes c).foldr (fun b acc2 => percentByte b ++ acc2) []) ++ acc)
    []

def hexVal (c : Char) : Option Nat :=
  if 48 ≤ c.toNat ∧ c.toNat ≤ 57 then some (c.toNat - 48)
  else if 65 ≤ c.toNat ∧ c.toNat ≤ 70 then some (c.toNat - 55)
  else if 97 ≤ c.toNat ∧ c.toNat ≤ 102 then some (c.toNat - 87)
  else none

/-- Model of `url.QueryUnescape`: `+` is a space, `%XX` a byte; a malformed
escape fails.  Decoded bytes are kept as single characters (the byte-level
view of Go strings). -/
def queryUnescape : Str → Option Str
  | [] => some []
  | '%' :: a :: b :: rest =>
    match hexVal a, hexVal b, queryUnescape rest with
    | some ha, some hb, some r => some (Char.ofNat (16 * ha + hb) :: r)
    | _, _, _ => none
  | '%' :: _ => none
  | '+' :: rest => (queryUnescape rest).map fun r => ' ' :: r
  | c :: rest => (queryUnescape rest).map fun r => c :: r

def splitOnChar (sep : Char) : Str → List Str
  | [] => [[]]
  | c :: cs =>
    if c = sep then [] :: splitOnChar sep cs
    else
      match splitOnChar sep cs with
      | [] => [[c]]
      | p :: ps => (c :: p) :: ps

/-- Model of `strings.Cut seg "="`: the part before the first `=` and the
part after it (empty when there is no `=`). -/
def cutEqF : Str → Str × Str
  | [] => ([], [])
  | '=' :: rest => ([], rest)
  | c :: rest =>
    let kv := cutEqF rest
    (c :: kv.1, kv.2)

/-- Model of `url.URL.Query()` (`ParseQuery` with the error ignored): split
the raw query on `&`, skip empty segments and segments containing `;`, cut
each at the first `=`, unescape both parts, silently skipping a pair whose
unescape fails. -/
def parseQuery (raw : Str) : QueryValues :=
  (splitOnChar '&' raw).foldl
    (fun m seg =>
      if seg.length = 0 then m
      else if seg.contains ';' then m
      else
        let kv := cutEqF seg
        match queryUnescape kv.2, queryUnescape kv.1 with
        | some v, some k => valuesAdd m k v
        | _, _ => m)
    []

/-- Model of `url.Values.Encode`: keys sorted, every value rendered as
`escape k = escape v`, components joined with `&`. -/
def valuesEncode (q : QueryValues) : Str :=
  joinWith ['&']
    ((sortByKey q).foldr
      (fun e acc => (e.2.map fun v => queryEscape e.1 ++ '=' :: queryEscape v) ++ acc)
      [])

/-- The parts of a parsed URL the handler manipulates.  Models
`net/url.Parse` at the level the dispatcher uses it — splitting off the
fragment and the raw query and re-serialising them; path re-escaping is
not modelled. -/
structure ParsedURL where
  base : Str
  rawQuery : Str
  fragment : Str

def cutAtChar (sep : Char) : Str → Str × Option Str
  | [] => ([], none)
  | c :: rest =>
    if c = sep then ([], some rest)
    else
      let r := cutAtChar sep rest
      (c :: r.1, r.2)

def urlParse (s : Str) : ParsedURL :=
  let fcut := cutAtChar '#' s
  let qcut := cutAtChar '?' fcut.1
  { base := qcut.1, rawQuery := qcut.2.getD [], fragment := fcut.2.getD [] }

/-- Model of `url.URL.String()` for the parts above. -/
def urlString (u : ParsedURL) : Str :=
  u.base ++ (if u.rawQuery.length = 0 then [] else '?' :: u.rawQuery) ++
    (if u.fragment.length = 0 then [] else '#' :: u.fragment)

/-! ### The request dispatcher (`NewToolHandler`, adapter.go lines 57-159) -/

/-- The three classified parameter groups of one invocation. -/
structure Classified where
  pathParams : List (Str × GoValue)
  queryParams : List (Str × GoValue)
  bodyParams : List (Str × GoValue)

def lookupVal (params : List (Str × GoValue)) (key : Str) : Option GoValue :=
  List.lookup key params

/-- Model of `params[key].(map[string]interface{})` (lines 64-72): the value
under `key` when it exists and is a nested key/value map, otherwise the
empty map. -/
def asGroupMap (params : List (Str × GoValue)) (key : Str) : List (Str × GoValue) :=
  match lookupVal params key with
  | some (.obj m) => m
  | _ => []

/-- The `{name}` placeholder of a parameter. -/
def placeholder (name : Str) : Str := '\x7b' :: name ++ ['\x7d']

/-- Model of the grouped/legacy argument classification (lines 59-83): the
three group keys are read as nested maps; if all three come out empty,
every top-level argument is classified by the legacy rule — path when the
template contains the literal `{key}` placeholder, body otherwise.  No
argument becomes a query parameter in that fallback.  Go iterates its maps
in unspecified order; the association-list order stands for one such
order. -/
def classifyParams (url : Str) (params : List (Str × GoValue)) : Classified :=
  let pathParams := asGroupMap params (S "pathNames")
  let queryParams := asGroupMap params (S "searchParams")
  let bodyParams := asGroupMap params (S "requestBody")
  if pathParams.length = 0 ∧ queryParams.length = 0 ∧ bodyParams.length = 0 then
    params.foldl
      (fun acc kv =>
        if containsSub url (placeholder kv.1) then
          { acc with pathParams := acc.pathParams ++ [kv] }
        else
          { acc with bodyParams := acc.bodyParams ++ [kv] })
      ⟨[], [], []⟩
  else
    ⟨pathParams, queryParams, bodyParams⟩

/-- Value-to-text conversion for path parameters (lines 89-97): strings
literally, nil as the empty string, anything else via the generic
to-string conversion. -/
def renderPathValue : GoValue → Str
  | .str s => s
  | .null => []
  | v => goFmt v

/-- Value-to-text conversion for query parameters (lines 109-117): nil is
skipped entirely (`none`), strings literal, others via to-string. -/
def renderQueryValue : GoValue → Option Str
  | .str s => some s
  | .null => none
  | v => some (goFmt v)

/-- Path placeholder substitution (lines 85-100): for each path parameter in
turn, if its `{name}` placeholder occurs in the current URL, every
occurrence is replaced by the rendered value; otherwise the parameter is
ignored. -/
def substPath (url : Str) (pathParams : List (Str × GoValue)) : Str :=
  pathParams.foldl
    (fun finalURL kv =>
      if containsSub finalURL (placeholder kv.1) then
        replaceAll finalURL (placeholder kv.1) (renderPathValue kv.2)
      else finalURL)
    url

/-- The query-parameter fold (lines 108-119): add each query parameter to
the `url.Values`, skipping nil values entirely. -/
def addAllQuery (q : QueryValues) (queryParams : List (Str × GoValue)) : QueryValues :=
  queryParams.foldl
    (fun q kv =>
      match renderQueryValue kv.2 with
      | none => q
      | some sv => valuesAdd q kv.1 sv)
    q

/-- The query phase on the pure URL model (lines 102-122): when at least one
query parameter exists, parse the URL, add all non-nil query parameters to
its existing query values, re-encode and re-serialise; otherwise leave the
URL untouched. -/
def addQueryParams (finalURL : Str) (queryParams : List (Str × GoValue)) : Str :=
  if 0 < queryParams.length then
    let parsedURL := urlParse finalURL
    let q := addAllQuery (parseQuery parsedURL.rawQuery) queryParams
    urlString { parsedURL with rawQuery := valuesEncode q }
  else finalURL

/-- ASCII-case-insensitive header-key equality: the observable equality of
Go's canonical MIME header keys (valid keys collide in `http.Header`
exactly when they are ASCII-case-insensitively equal). -/
def headerKeyEq (a b : Str) : Bool := toLowerStr a == toLowerStr b

/-- Model of `http.Header.Set`: replace the value under an existing
(case-insensitively equal) key, or append a new entry. -/
def headerSet (hs : List (Str × Str)) (k v : Str) : List (Str × Str) :=
  if hs.any fun e => headerKeyEq e.1 k then
    hs.map fun e => if headerKeyEq e.1 k then (e.1, v) else e
  else hs ++ [(k, v)]

/-- Model of `http.Header.Get`. -/
def headerGet (hs : List (Str × Str)) (k : Str) : Option Str :=
  (hs.find? fun e => headerKeyEq e.1 k).map fun e => e.2

/-- The extra-header loop (lines 141-143): `Set` every configured header. -/
def applyExtraHeaders (hs : List (Str × Str)) (extra : List (Str × Str)) :
    List (Str × Str) :=
  extra.foldl (fun hs kv => headerSet hs kv.1 kv.2) hs

/-- An outbound HTTP request as the handler assembles it. -/
structure HttpRequest where
  method : Str
  url : Str
  body : Option Str
  headers : List (Str × Str)
deriving DecidableEq

/-- The body phase (lines 124-131): marshal the body map as JSON when at
least one body parameter exists. -/
def buildBody (bodyParams : List (Str × GoValue)) : Option Str :=
  if 0 < bodyParams.length then some (jsonMarshal (.obj bodyParams)) else none

/-- The header phase (lines 138-143): `Content-Type: application/json`
exactly when a body is present, then every statically configured extra
header, overwriting on key collision. -/
def buildHeaders (hasBody : Bool) (extraHeaders : List (Str × Str)) :
    List (Str × Str) :=
  applyExtraHeaders
    (if hasBody then headerSet [] (S "Content-Type") (S "application/json") else [])
    extraHeaders

/-- The full pure resolution pipeline of one invocation (lines 59-143):
classification, path substitution, query phase, body and header phases —
the request handed to the HTTP client. -/
def resolveRequest (method url : Str) (extraHeaders : List (Str × Str))
    (args : List (Str × GoValue)) : HttpRequest :=
  let c := classifyParams url args
  let u1 := substPath url c.pathParams
  let u2 := addQueryParams u1 c.queryParams
  let body := buildBody c.bodyParams
  { method := method, url := u2, body := body,
    headers := buildHeaders body.isSome extraHeaders }

/-- Outcome of one HTTP exchange: the response status code and the outcome
of `io.ReadAll` on its body. -/
structure HttpResponse where
  statusCode : Nat
  bodyRead : Except Str Str

/-- The fallible operations of the handler, abstracted as oracles so the
error propagation of lines 102-157 can be stated for every outcome: URL
parsing, JSON marshalling, request construction, and executing the request
(whose response carries the body-read outcome). -/
structure NetFx where
  parseURL : Str → Except Str ParsedURL
  marshalBody : List (Str × GoValue) → Except Str Str
  newRequest : Str → Str → Option Str → Except Str HttpRequest
  doRequest : HttpRequest → Except Str HttpResponse

/-- An MCP tool result: the adapter only ever produces text results
(`mcp.NewToolResultText`). -/
inductive ToolResult where
  | text (s : Str)
deriving DecidableEq

/-- The query phase with the parse oracle (lines 102-122). -/
def queryPhase (fx : NetFx) (queryParams : List (Str × GoValue)) (u1 : Str) :
    Except Str Str :=
  if 0 < queryParams.length then
    (fx.parseURL u1).map fun parsedURL =>
      urlString { parsedURL with
        rawQuery := valuesEncode (addAllQuery (parseQuery parsedURL.rawQuery) queryParams) }
  else .ok u1

/-- The body phase with the marshal oracle (lines 124-131). -/
def bodyPhase (fx : NetFx) (bodyParams : List (Str × GoValue)) :
    Except Str (Option Str) :=
  if 0 < bodyParams.length then (fx.marshalBody bodyParams).map some else .ok none

/-- The header-setting step applied to the freshly constructed request
(lines 138-143): `Content-Type` when a body is present, then the extra
headers. -/
def finalizeRequest (req : HttpRequest) (reqBody : Option Str)
    (extraHeaders : List (Str × Str)) : HttpRequest :=
  let hs2 :=
    applyExtraHeaders
      (if reqBody.isSome then
        headerSet req.headers (S "Content-Type") (S "application/json")
      else req.headers)
      extraHeaders
  { req with headers := hs2 }

/-- Two HTTP-exchange outcomes that differ at most in the response status
code: both fail with the same message, or both succeed with the same
body-read outcome. -/
def sameBodyRead : Except Str HttpResponse → Except Str HttpResponse → Prop
  | .error e, .error e2 => e = e2
  | .ok r, .ok r2 => r.bodyRead = r2.bodyRead
  | _, _ => False

/-- Model of the invocation handler returned by `NewToolHandler` (lines
58-158), with the fallible operations supplied by `fx`.  The second
component models the Go `error` return value, which is `nil` on every
path: failures come back as text results naming the failing phase, and a
completed response's body comes back verbatim with no status branching. -/
def toolHandler (fx : NetFx) (method url : Str) (extraHeaders : List (Str × Str))
    (args : List (Str × GoValue)) : ToolResult × Option Str :=
  let c := classifyParams url args
  let u1 := substPath url c.pathParams
  match queryPhase fx c.queryParams u1 with
  | .error e => (.text (S "Error parsing URL: " ++ e), none)
  | .ok u2 =>
    match bodyPhase fx c.bodyParams with
    | .error e => (.text (S "Error marshaling body parameters: " ++ e), none)
    | .ok reqBody =>
      match fx.newRequest method u2 reqBody with
      | .error e => (.text (S "Error creating request: " ++ e), none)
      | .ok req =>
        match fx.doRequest (finalizeRequest req reqBody extraHeaders) with
        | .error e => (.text (S "Error executing request: " ++ e), none)
        | .ok resp =>
          match resp.bodyRead with
          | .error e => (.text (S "Error reading response: " ++ e), none)
          | .ok body => (.text body, none)

/-! ### The schema translator (`NewMCPFromCustomParser`, lines 162-287) -/

/-- OpenAPI property schema as the translator consumes it (`Schema`): type
tag, description, optional enum, format (empty string = absent), optional
default, optional items and properties pass-through, and (for body
schemas) the required-field list. -/
inductive Schema where
  | mk (type : Str) (description : Str) (enum : Option (List GoValue)) (format : Str)
      (default : Option GoValue) (items : Option Schema)
      (properties : Option (List (Str × Schema))) (required : List Str)

def Schema.type : Schema → Str
  | .mk t _ _ _ _ _ _ _ => t

def Schema.description : Schema → Str
  | .mk _ d _ _ _ _ _ _ => d

def Schema.enum : Schema → Option (List GoValue)
  | .mk _ _ e _ _ _ _ _ => e

def Schema.format : Schema → Str
  | .mk _ _ _ f _ _ _ _ => f

def Schema.default : Schema → Option GoValue
  | .mk _ _ _ _ d _ _ _ => d

def Schema.items : Schema → Option Schema
  | .mk _ _ _ _ _ i _ _ => i

def Schema.properties : Schema → Option (List (Str × Schema))
  | .mk _ _ _ _ _ _ p _ => p

def Schema.required : Schema → List Str
  | .mk _ _ _ _ _ _ _ r => r

/-- One operation parameter (`Parameter`): name, location (`In`), required
flag, description, schema. -/
structure ParamDesc where
  name : Str
  In : Str
  required : Bool
  description : Str
  schema : Schema

/-- One request-body media type entry (`MediaType`). -/
structure MediaTypeObj where
  schema : Option Schema

/-- The request-body descriptor (`RequestBody`): media type → entry. -/
structure RequestBodyObj where
  content : List (Str × MediaTypeObj)

/-- One operation descriptor (`API`). -/
structure APIDesc where
  operationID : Str
  summary : Str
  description : Str
  method : Str
  path : Str
  parameters : List ParamDesc
  requestBody : Option RequestBodyObj

/-- The value stored under one key of a translated property object
(`map[string]interface{}` in the source). -/
inductive FieldVal where
  | text (s : Str)
  | value (v : GoValue)
  | valueList (vs : List GoValue)
  | schemaVal (sch : Schema)
  | schemaMap (m : List (Str × Schema))

/-- A translated property object. -/
abbrev PropObj := List (Str × FieldVal)

/-- Go map assignment `m[k] = v` on an association list: replace in place
or append. -/
def mapSet {α : Type} (m : List (Str × α)) (k : Str) (v : α) : List (Str × α) :=
  if m.any fun e => e.1 == k then
    m.map fun e => if e.1 == k then (e.1, v) else e
  else m ++ [(k, v)]

/-- The `if field != nil { prop[k] = f field }` pattern of the property
builders: set the key only when the optional source field is present. -/
def mapSetOpt {α β : Type} (m : List (Str × α)) (k : Str) (o : Option β) (f : β → α) :
    List (Str × α) :=
  match o with
  | some x => mapSet m k (f x)
  | none => m

/-- Model of `prefixRequired` (lines 17-22): prepend the literal marker
`"[required] "` when required and the description does not already start
with `"[required]"`. -/
def prefixRequired (isRequired : Bool) (desc : Str) : Str :=
  if isRequired && !(isPre (S "[required]") desc) then S "[required] " ++ desc else desc

/-- Model of `isRequiredField` (lines 24-31). -/
def isRequiredField (field : Str) (requiredList : List Str) : Bool :=
  requiredList.any fun name => name == field

/-- The optional-field part shared by both property builders (lines
191-204 and 250-264): `enum`, `format` (empty string = absent), `default`,
`items`, `properties`, in source order. -/
def addOptionalFields (prop : PropObj) (sch : Schema) : PropObj :=
  let prop := mapSetOpt prop (S "enum") sch.enum .valueList
  let prop :=
    if sch.format.length ≠ 0 then mapSet prop (S "format") (.text sch.format) else prop
  let prop := mapSetOpt prop (S "default") sch.default .value
  let prop := mapSetOpt prop (S "items") sch.items .schemaVal
  mapSetOpt prop (S "properties") sch.properties .schemaMap

/-- The property object built for one parameter (lines 186-204). -/
def buildParamProp (p : ParamDesc) : PropObj :=
  addOptionalFields
    [(S "type", .text p.schema.type),
     (S "description", .text (prefixRequired p.required p.description))]
    p.schema

/-- The property object built for one request-body property (lines
246-264); the required flag comes from the media type's own required
list. -/
def buildBodyProp (reqList : List Str) (propName : Str) (propSchema : Schema) : PropObj :=
  addOptionalFields
    [(S "type", .text propSchema.type),
     (S "description",
      .text (prefixRequired (isRequiredField propName reqList) propSchema.description))]
    propSchema

/-- Accumulator of the parameter loop (lines 179-218). -/
structure ParamAcc where
  queryProps : List (Str × PropObj)
  requiredQuery : List Str
  pathProps : List (Str × PropObj)
  requiredPath : List Str

/-- One iteration of the parameter loop (lines 185-218): route the property
into the query or path group by location; other locations are dropped. -/
def paramStep (acc : ParamAcc) (p : ParamDesc) : ParamAcc :=
  if p.In == S "query" then
    { acc with
      queryProps := mapSet acc.queryProps p.name (buildParamProp p),
      requiredQuery :=
        if p.required then acc.requiredQuery ++ [p.name] else acc.requiredQuery }
  else if p.In == S "path" then
    { acc with
      pathProps := mapSet acc.pathProps p.name (buildParamProp p),
      requiredPath :=
        if p.required then acc.requiredPath ++ [p.name] else acc.requiredPath }
  else acc

def paramAccOf (api : APIDesc) : ParamAcc :=
  api.parameters.foldl paramStep ⟨[], [], [], []⟩

/-- Accumulator of the request-body loop (lines 239-271). -/
structure BodyAcc where
  props : List (Str × PropObj)
  required : List Str

/-- One media type of the request-body loop (lines 243-271): a nil schema
contributes nothing; otherwise every property is flattened in (last writer
wins on name collision). -/
def bodyMediaStep (acc : BodyAcc) (mt : Str × MediaTypeObj) : BodyAcc :=
  match mt.2.schema with
  | none => acc
  | some sch =>
    (sch.properties.getD []).foldl
      (fun acc kv =>
        { props := mapSet acc.props kv.1 (buildBodyProp sch.required kv.1 kv.2),
          required :=
            if isRequiredField kv.1 sch.required then acc.required ++ [kv.1]
            else acc.required })
      acc

def bodyAccOf (rb : RequestBodyObj) : BodyAcc :=
  rb.content.foldl bodyMediaStep ⟨[], []⟩

/-- One named parameter group of the translated schema
(`mcp.WithObject`). -/
structure ObjGroup where
  groupDescription : Str
  properties : List (Str × PropObj)
  required : List Str

/-- The translated tool-call schema: name, description, and the parameter
groups in registration order. -/
structure ToolSchema where
  name : Str
  description : Str
  groups : List (Str × ObjGroup)

/-- Model of the per-operation translation (lines 173-283): tool name,
description, then the `searchParams` and `pathNames` groups when their
property maps are non-empty (lines 220-237), and the `requestBody` group
whenever the descriptor is present with at least one content entry (lines
242-279 — note the group is emitted even when its property map came out
empty). -/
def translateOp (pfx : Str) (api : APIDesc) : ToolSchema :=
  let acc := paramAccOf api
  let g1 : List (Str × ObjGroup) :=
    if 0 < acc.queryProps.length then
      [(S "searchParams", ⟨S "url parameters for the tool", acc.queryProps, acc.requiredQuery⟩)]
    else []
  let g2 : List (Str × ObjGroup) :=
    if 0 < acc.pathProps.length then
      [(S "pathNames", ⟨S "path parameters for the tool", acc.pathProps, acc.requiredPath⟩)]
    else []
  let g3 : List (Str × ObjGroup) :=
    match api.requestBody with
    | some rb =>
      if 0 < rb.content.length then
        [(S "requestBody",
          ⟨S "request body for the tool", (bodyAccOf rb).props, (bodyAccOf rb).required⟩)]
      else []
    | none => []
  { name := sanitizeToolName (pfx ++ '_' :: api.operationID),
    description := api.operationID ++ ' ' :: api.summary ++ ' ' :: api.description,
    groups := g1 ++ g2 ++ g3 }

def hasGroup (ts : ToolSchema) (gname : Str) : Bool :=
  ts.groups.any fun g => g.1 == gname

/-! ### Spec-side definitions used to state the refuted claims -/

/-- Claim C1's invariant as the spec states it: every group present in a
translated schema has a non-empty property map ("a group is omitted
entirely when it has no properties"). -/
def groupsOmittedWhenEmpty (ts : ToolSchema) : Prop :=
  ∀ g ∈ ts.groups, 0 < g.2.properties.length

/-- Claim C2's classification as the spec words it: grouped mode is selected
whenever any of the three group keys is present as a nested key/value map
(even an empty one); only otherwise does the legacy fallback run. -/
def classifySpec (url : Str) (params : List (Str × GoValue)) : Classified :=
  let hasGroupKey := params.any fun kv =>
    (kv.1 == S "pathNames" || kv.1 == S "searchParams" || kv.1 == S "requestBody") &&
      (match kv.2 with | .obj _ => true | _ => false)
  if hasGroupKey then
    ⟨asGroupMap params (S "pathNames"), asGroupMap params (S "searchParams"),
      asGroupMap params (S "requestBody")⟩
  else
    params.foldl
      (fun acc kv =>
        if containsSub url (placeholder kv.1) then
          { acc with pathParams := acc.pathParams ++ [kv] }
        else
          { acc with bodyParams := acc.bodyParams ++ [kv] })
      ⟨[], [], []⟩

/-! ### Lemmas about the basic string routines -/

theorem sanitize_fixture_get_user :
    sanitizeToolName (S "Get User \x7bid\x7d") = S "get_user_id" := by decide

theorem sanitize_fixture_amp : sanitizeToolName (S "A & B") = S "a_and_b" := by decide

theorem sanitize_fixture_empty : sanitizeToolName (S "") = S "unnamed_tool" := by decide

theorem sanitize_fixture_unders : sanitizeToolName (S "___") = S "unnamed_tool" := by decide

theorem isPre_iff (p s : Str) : isPre p s = true ↔ ∃ t, s = p ++ t := by
  induction p generalizing s with
  | nil => simp [isPre]
  | cons a ps ih =>
    cases s with
    | nil => simp [isPre]
    | cons c cs =>
      simp only [isPre, Bool.and_eq_true, beq_iff_eq]
      constructor
      · rintro ⟨rfl, h⟩
        obtain ⟨t, rfl⟩ := (ih cs).1 h
        exact ⟨t, rfl⟩
      · rintro ⟨t, h⟩
        injection h with h1 h2
        exact ⟨h1.symm, (ih cs).2 ⟨t, h2⟩⟩

theorem containsSub_iff (s p : Str) : containsSub s p = true ↔ ∃ l r, s = l ++ p ++ r := by
  induction s with
  | nil =>
    simp only [containsSub, isPre_iff]
    constructor
    · rintro ⟨t, h⟩
      rw [eq_comm, List.append_eq_nil] at h
      exact ⟨[], [], by simp [h.1, h.2]⟩
    · rintro ⟨l, r, h⟩
      rw [eq_comm, List.append_assoc, List.append_eq_nil] at h
      rw [List.append_eq_nil] at *
      exact ⟨[], by simp [h.2.1]⟩
  | cons c cs ih =>
    simp only [containsSub, Bool.or_eq_true]
    constructor
    · rintro (h | h)
      · obtain ⟨t, ht⟩ := (isPre_iff _ _).1 h
        exact ⟨[], t, by simp [ht]⟩
      · obtain ⟨l, r, hr⟩ := ih.1 h
        exact ⟨c :: l, r, by simp [hr]⟩
    · rintro ⟨l, r, h⟩
      cases l with
      | nil =>
        exact Or.inl ((isPre_iff _ _).2 ⟨r, by simpa using h⟩)
      | cons a l2 =>
        injection h with h1 h2
        exact Or.inr (ih.2 ⟨l2, r, h2⟩)

theorem isPre_length {p s : Str} (h : isPre p s = true) : p.length ≤ s.length := by
  obtain ⟨t, rfl⟩ := (isPre_iff p s).1 h
  simp

theorem containsSub_append_left {s pat : Str} (t : Str) (h : containsSub s pat = true) :
    containsSub (s ++ t) pat = true := by
  rw [containsSub_iff] at h ⊢
  obtain ⟨l, r, rfl⟩ := h
  exact ⟨l, r ++ t, by simp⟩

theorem containsSub_append_right {s pat : Str} (t : Str) (h : containsSub s pat = true) :
    containsSub (t ++ s) pat = true := by
  rw [containsSub_iff] at h ⊢
  obtain ⟨l, r, rfl⟩ := h
  exact ⟨t ++ l, r, by simp⟩

theorem containsSub_single_iff (s : Str) (c : Char) : containsSub s [c] = true ↔ c ∈ s := by
  induction s with
  | nil => simp [containsSub, isPre]
  | cons a as ih =>
    simp only [containsSub, Bool.or_eq_true, ih, isPre, Bool.and_eq_true, beq_iff_eq,
      List.mem_cons]
    constructor
    · rintro (⟨rfl, -⟩ | h)
      · exact Or.inl rfl
      · exact Or.inr h
    · rintro (rfl | h)
      · exact Or.inl ⟨rfl, trivial⟩
      · exact Or.inr h

theorem replaceAllF_of_not_contains {f : Nat} {pat rep s : Str}
    (h : containsSub s pat = false) : replaceAllF f pat rep s = s := by
  induction f generalizing s with
  | zero => cases s <;> rfl
  | succ f ih =>
    cases s with
    | nil => rfl
    | cons c cs =>
      rw [containsSub, Bool.or_eq_false_iff] at h
      simp only [replaceAllF]
      rw [if_neg (by simp [h.1]), ih h.2]

theorem replaceAll_of_not_contains {pat rep s : Str} (h : containsSub s pat = false) :
    replaceAll s pat rep = s := replaceAllF_of_not_contains h

theorem mem_replaceAllF {f : Nat} {pat rep s : Str} {c : Char}
    (h : c ∈ replaceAllF f pat rep s) : c ∈ s ∨ c ∈ rep := by
  induction f generalizing s with
  | zero =>
    cases s with
    | nil => simp [replaceAllF] at h
    | cons a as => exact Or.inl h
  | succ f ih =>
    cases s with
    | nil => simp [replaceAllF] at h
    | cons a as =>
      simp only [replaceAllF] at h
      split at h
      · rcases List.mem_append.1 h with h1 | h1
        · exact Or.inr h1
        · rcases ih h1 with h2 | h2
          · exact Or.inl (List.drop_subset _ _ h2)
          · exact Or.inr h2
      · rcases List.mem_cons.1 h with h1 | h1
        · exact Or.inl (h1 ▸ List.mem_cons_self a as)
        · rcases ih h1 with h2 | h2
          · exact Or.inl (List.mem_cons_of_mem _ h2)
          · exact Or.inr h2

theorem mem_replaceAll {pat rep s : Str} {c : Char} (h : c ∈ replaceAll s pat rep) :
    c ∈ s ∨ c ∈ rep := mem_replaceAllF h

theorem not_mem_replaceAll {pat rep s : Str} {c : Char} (hs : c ∉ s) (hr : c ∉ rep) :
    c ∉ replaceAll s pat rep := fun h => (mem_replaceAll h).elim hs hr

theorem not_mem_replaceAllF_single {f : Nat} {p : Char} {rep s : Str}
    (hf : s.length ≤ f) (hrep : p ∉ rep) : p ∉ replaceAllF f [p] rep s := by
  induction f generalizing s with
  | zero =>
    have hnil : s = [] := List.eq_nil_of_length_eq_zero (Nat.le_zero.1 hf)
    subst hnil
    simp [replaceAllF]
  | succ f ih =>
    cases s with
    | nil => simp [replaceAllF]
    | cons a as =>
      simp only [replaceAllF]
      by_cases hp : isPre [p] (a :: as) = true
      · rw [if_pos (by simp [hp])]
        intro hmem
        rcases List.mem_append.1 hmem with h1 | h1
        · exact hrep h1
        · exact ih (by simpa using Nat.le_of_succ_le_succ hf) h1
      · rw [if_neg (by simp [hp])]
        have hne : p ≠ a := by
          intro e
          exact hp (by simp [isPre, e])
        intro hmem
        rcases List.mem_cons.1 hmem with h1 | h1
        · exact hne h1
        · exact ih (Nat.le_of_succ_le_succ hf) h1

theorem not_mem_replaceAll_single {p : Char} {rep s : Str} (hrep : p ∉ rep) :
    p ∉ replaceAll s [p] rep := not_mem_replaceAllF_single (Nat.le_refl _) hrep

theorem length_replaceAllF_le {f : Nat} {pat rep s : Str} (hr : rep.length ≤ pat.length) :
    (replaceAllF f pat rep s).length ≤ s.length := by
  induction f generalizing s with
  | zero => cases s <;> simp [replaceAllF]
  | succ f ih =>
    cases s with
    | nil => simp [replaceAllF]
    | cons a as =>
      simp only [replaceAllF]
      split
      · rename_i hcond
        rw [Bool.and_eq_true] at hcond
        have hlen : pat.length ≤ (a :: as).length := isPre_length hcond.1
        rw [List.length_append]
        have hrec := ih (s := (a :: as).drop pat.length)
        rw [List.length_drop] at hrec
        simp only [List.length_cons] at *
        omega
      · simp only [List.length_cons]
        exact Nat.succ_le_succ ih

theorem length_replaceAllF_UU_lt {f : Nat} {s : Str} (hf : s.length ≤ f)
    (h : containsSub s ['_', '_'] = true) :
    (replaceAllF f ['_', '_'] ['_'] s).length < s.length := by
  induction f generalizing s with
  | zero =>
    have hnil : s = [] := List.eq_nil_of_length_eq_zero (Nat.le_zero.1 hf)
    subst hnil
    simp [containsSub, isPre] at h
  | succ f ih =>
    cases s with
    | nil => simp [containsSub, isPre] at h
    | cons a as =>
      simp only [replaceAllF]
      by_cases hp : isPre ['_', '_'] (a :: as) = true
      · rw [if_pos (by simp [hp])]
        have h2 : 2 ≤ (a :: as).length := isPre_length hp
        have hrec : (replaceAllF f ['_', '_'] ['_'] ((a :: as).drop 2)).length ≤
            ((a :: as).drop 2).length := length_replaceAllF_le (by simp)
        show (['_'] ++ replaceAllF f ['_', '_'] ['_'] ((a :: as).drop 2)).length
            < (a :: as).length
        rw [List.length_append]
        rw [List.length_drop] at hrec
        simp only [List.length_cons, List.length_nil, List.length_singleton] at h2 hrec ⊢
        omega
      · rw [if_neg (by simp [hp])]
        rw [containsSub, Bool.or_eq_true] at h
        rcases h with h | h
        · exact absurd h hp
        · have := ih (by simpa using Nat.le_of_succ_le_succ hf) h
          simp only [List.length_cons]
          omega

theorem length_collapseStep_lt {s : Str} (h : containsSub s ['_', '_'] = true) :
    (collapseStep s).length < s.length :=
  length_replaceAllF_UU_lt (Nat.le_refl _) h

theorem collapseF_no_UU {f : Nat} {s : Str} (hf : s.length ≤ f) :
    containsSub (collapseF f s) ['_', '_'] = false := by
  induction f generalizing s with
  | zero =>
    have hnil : s = [] := List.eq_nil_of_length_eq_zero (Nat.le_zero.1 hf)
    subst hnil
    rfl
  | succ f ih =>
    simp only [collapseF]
    by_cases h : containsSub s ['_', '_'] = true
    · rw [if_pos h]
      exact ih (by have := length_collapseStep_lt h; omega)
    · rw [if_neg h]
      exact Bool.not_eq_true _ ▸ h

theorem collapseF_eq_self {f : Nat} {s : Str} (h : containsSub s ['_', '_'] = false) :
    collapseF f s = s := by
  cases f with
  | zero => rfl
  | succ f => simp [collapseF, h]

theorem collapseUnd_no_UU (s : Str) : containsSub (collapseUnd s) ['_', '_'] = false :=
  collapseF_no_UU (Nat.le_refl _)

theorem collapseUnd_eq_self {s : Str} (h : containsSub s ['_', '_'] = false) :
    collapseUnd s = s := collapseF_eq_self h

theorem mem_collapseF {f : Nat} {s : Str} {c : Char} (h : c ∈ collapseF f s) :
    c ∈ s ∨ c = '_' := by
  induction f generalizing s with
  | zero => exact Or.inl h
  | succ f ih =>
    simp only [collapseF] at h
    split at h
    · rcases ih h with h1 | h1
      · rcases mem_replaceAll h1 with h2 | h2
        · exact Or.inl h2
        · simp only [List.mem_singleton] at h2
          exact Or.inr h2
      · exact Or.inr h1
    · exact Or.inl h

theorem mem_collapseUnd {s : Str} {c : Char} (h : c ∈ collapseUnd s) : c ∈ s ∨ c = '_' :=
  mem_collapseF h

theorem hasSuffixUnd_iff (s : Str) : hasSuffixUnd s = true ↔ ∃ t, s = t ++ ['_'] := by
  unfold hasSuffixUnd
  rw [isPre_iff]
  constructor
  · rintro ⟨t, ht⟩
    refine ⟨t.reverse, ?_⟩
    have := congrArg List.reverse ht
    simpa using this
  · rintro ⟨t, rfl⟩
    exact ⟨t.reverse, by simp⟩

theorem no_UU_dropLast {s : Str} (h : containsSub s ['_', '_'] = false) :
    containsSub s.dropLast ['_', '_'] = false := by
  rcases eq_or_ne s [] with rfl | hne
  · exact h
  · by_contra hc
    rw [Bool.not_eq_false] at hc
    have h2 := containsSub_append_left [s.getLast hne] hc
    rw [List.dropLast_append_getLast hne] at h2
    rw [h2] at h
    cases h

theorem no_UU_drop1 {s : Str} (h : containsSub s ['_', '_'] = false) :
    containsSub (s.drop 1) ['_', '_'] = false := by
  by_contra hc
  rw [Bool.not_eq_false] at hc
  have h2 := containsSub_append_right (s.take 1) hc
  rw [List.take_append_drop] at h2
  rw [h2] at h
  cases h

theorem trimTrail_no_suffix {s : Str} (h : containsSub s ['_', '_'] = false) :
    hasSuffixUnd (trimTrailUnd s) = false := by
  unfold trimTrailUnd
  by_cases hs : hasSuffixUnd s = true
  · rw [if_pos hs]
    obtain ⟨t, rfl⟩ := (hasSuffixUnd_iff s).1 hs
    rw [List.dropLast_concat]
    by_contra hc
    rw [Bool.not_eq_false] at hc
    obtain ⟨u, rfl⟩ := (hasSuffixUnd_iff t).1 hc
    have hcontra : containsSub ((u ++ ['_']) ++ ['_']) ['_', '_'] = true := by
      rw [containsSub_iff]
      exact ⟨u, [], by simp⟩
    rw [hcontra] at h
    cases h
  · rw [if_neg hs]
    exact Bool.not_eq_true _ ▸ hs

theorem trimLead_no_lead {s : Str} (h : containsSub s ['_', '_'] = false) :
    isPre ['_'] (trimLeadUnd s) = false := by
  unfold trimLeadUnd
  by_cases hs : isPre ['_'] s = true
  · rw [if_pos hs]
    obtain ⟨t, rfl⟩ := (isPre_iff _ _).1 hs
    simp only [List.singleton_append, List.drop_succ_cons, List.drop_zero]
    by_contra hc
    rw [Bool.not_eq_false] at hc
    obtain ⟨u, rfl⟩ := (isPre_iff _ _).1 hc
    have hcontra : containsSub (['_'] ++ (['_'] ++ u)) ['_', '_'] = true := by
      rw [containsSub_iff]
      exact ⟨[], u, by simp⟩
    rw [hcontra] at h
    cases h
  · rw [if_neg hs]
    exact Bool.not_eq_true _ ▸ hs

theorem trimLead_no_suffix {s : Str} (h : hasSuffixUnd s = false) :
    hasSuffixUnd (trimLeadUnd s) = false := by
  unfold trimLeadUnd
  split
  · by_contra hc
    rw [Bool.not_eq_false] at hc
    obtain ⟨t, ht⟩ := (hasSuffixUnd_iff _).1 hc
    have hs2 : s = s.take 1 ++ (t ++ ['_']) := by rw [← ht, List.take_append_drop]
    have hcontra : hasSuffixUnd s = true := by
      rw [hasSuffixUnd_iff]
      exact ⟨s.take 1 ++ t, by rw [List.append_assoc]; exact hs2⟩
    rw [hcontra] at h
    cases h
  · exact h

theorem mem_trimTrail {s : Str} {c : Char} (h : c ∈ trimTrailUnd s) : c ∈ s := by
  unfold trimTrailUnd at h
  split at h
  · exact List.dropLast_subset _ h
  · exact h

theorem mem_trimLead {s : Str} {c : Char} (h : c ∈ trimLeadUnd s) : c ∈ s := by
  unfold trimLeadUnd at h
  split at h
  · exact List.drop_subset _ _ h
  · exact h

theorem no_UU_trimTrail {s : Str} (h : containsSub s ['_', '_'] = false) :
    containsSub (trimTrailUnd s) ['_', '_'] = false := by
  unfold trimTrailUnd
  split
  · exact no_UU_dropLast h
  · exact h

theorem no_UU_trimLead {s : Str} (h : containsSub s ['_', '_'] = false) :
    containsSub (trimLeadUnd s) ['_', '_'] = false := by
  unfold trimLeadUnd
  split
  · exact no_UU_drop1 h
  · exact h

/-! ### Character-level lemmas and the sanitizer invariants -/

theorem toNat_ofNat_of_valid {n : Nat} (h : n.isValidChar) : (Char.ofNat n).toNat = n := by
  simp [Char.ofNat, dif_pos h, Char.ofNatAux, Char.toNat, UInt32.toNat, BitVec.toNat_ofNatLt]

theorem charToLower_idem (c : Char) : c.toLower.toLower = c.toLower := by
  simp only [Char.toLower]
  by_cases h : c.toNat ≥ 65 ∧ c.toNat ≤ 90
  · rw [if_pos h]
    have hv : (c.toNat + 32).isValidChar := Or.inl (by omega)
    have ht : (Char.ofNat (c.toNat + 32)).toNat = c.toNat + 32 := toNat_ofNat_of_valid hv
    rw [if_neg (by omega)]
  · rw [if_neg h, if_neg h]

theorem charToLower_not_upper (c : Char) : ¬(65 ≤ c.toLower.toNat ∧ c.toLower.toNat ≤ 90) := by
  simp only [Char.toLower]
  by_cases h : c.toNat ≥ 65 ∧ c.toNat ≤ 90
  · rw [if_pos h]
    have hv : (c.toNat + 32).isValidChar := Or.inl (by omega)
    have ht : (Char.ofNat (c.toNat + 32)).toNat = c.toNat + 32 := toNat_ofNat_of_valid hv
    omega
  · rw [if_neg h]
    omega

theorem lowerFixed_toLowerStr (x : Str) : lowerFixed (toLowerStr x) := by
  intro c hc
  obtain ⟨a, -, rfl⟩ := List.mem_map.1 hc
  exact charToLower_idem a

theorem lowerFixed_replaceAll {pat rep s : Str} (hs : lowerFixed s) (hr : lowerFixed rep) :
    lowerFixed (replaceAll s pat rep) := fun c hc => (mem_replaceAll hc).elim (hs c) (hr c)

theorem lowerFixed_sanitizeReplaced (x : Str) : lowerFixed (sanitizeReplaced x) := by
  simp only [sanitizeReplaced]
  repeat refine lowerFixed_replaceAll ?_ (by decide)
  exact lowerFixed_toLowerStr x

theorem lowerFixed_sanitize (x : Str) : lowerFixed (sanitizeToolName x) := by
  unfold sanitizeToolName
  split
  · decide
  · intro c hc
    unfold sanitizeTrimmed at hc
    have h2 := mem_trimTrail (mem_trimLead hc)
    rcases mem_collapseUnd h2 with h3 | rfl
    · exact lowerFixed_sanitizeReplaced x c h3
    · decide

theorem specials_not_mem_sanitizeReplaced (x : Str) :
    ∀ σ ∈ sanitizeSpecials, σ ∉ sanitizeReplaced x := by
  intro σ hσ
  simp only [sanitizeSpecials, List.mem_cons, List.not_mem_nil, or_false] at hσ
  simp only [sanitizeReplaced]
  rcases hσ with rfl | rfl | rfl | rfl | rfl | rfl | rfl | rfl | rfl | rfl | rfl
  · iterate 10 refine not_mem_replaceAll ?_ (by decide)
    exact not_mem_replaceAll_single (by decide)
  · iterate 9 refine not_mem_replaceAll ?_ (by decide)
    exact not_mem_replaceAll_single (by decide)
  · iterate 8 refine not_mem_replaceAll ?_ (by decide)
    exact not_mem_replaceAll_single (by decide)
  · iterate 7 refine not_mem_replaceAll ?_ (by decide)
    exact not_mem_replaceAll_single (by decide)
  · iterate 6 refine not_mem_replaceAll ?_ (by decide)
    exact not_mem_replaceAll_single (by decide)
  · iterate 5 refine not_mem_replaceAll ?_ (by decide)
    exact not_mem_replaceAll_single (by decide)
  · iterate 4 refine not_mem_replaceAll ?_ (by decide)
    exact not_mem_replaceAll_single (by decide)
  · iterate 3 refine not_mem_replaceAll ?_ (by decide)
    exact not_mem_replaceAll_single (by decide)
  · iterate 2 refine not_mem_replaceAll ?_ (by decide)
    exact not_mem_replaceAll_single (by decide)
  · iterate 1 refine not_mem_replaceAll ?_ (by decide)
    exact not_mem_replaceAll_single (by decide)
  · exact not_mem_replaceAll_single (by decide)

theorem specials_not_mem_sanitize (x : Str) :
    ∀ σ ∈ sanitizeSpecials, σ ∉ sanitizeToolName x := by
  intro σ hσ
  unfold sanitizeToolName
  split
  · simp only [sanitizeSpecials, List.mem_cons, List.not_mem_nil, or_false] at hσ
    rcases hσ with rfl | rfl | rfl | rfl | rfl | rfl | rfl | rfl | rfl | rfl | rfl <;> decide
  · intro hc
    unfold sanitizeTrimmed at hc
    have h2 := mem_trimTrail (mem_trimLead hc)
    rcases mem_collapseUnd h2 with h3 | rfl
    · exact specials_not_mem_sanitizeReplaced x σ hσ h3
    · exact absurd hσ (by decide)

theorem sanitize_no_UU (x : Str) : containsSub (sanitizeToolName x) ['_', '_'] = false := by
  unfold sanitizeToolName
  split
  · decide
  · exact no_UU_trimLead (no_UU_trimTrail (collapseUnd_no_UU _))

theorem sanitize_no_lead (x : Str) : isPre ['_'] (sanitizeToolName x) = false := by
  unfold sanitizeToolName
  split
  · decide
  · exact trimLead_no_lead (no_UU_trimTrail (collapseUnd_no_UU _))

theorem sanitize_no_trail (x : Str) : hasSuffixUnd (sanitizeToolName x) = false := by
  unfold sanitizeToolName
  split
  · decide
  · exact trimLead_no_suffix (trimTrail_no_suffix (collapseUnd_no_UU _))

theorem sanitize_ne_nil (x : Str) : sanitizeToolName x ≠ [] := by
  unfold sanitizeToolName
  split
  · decide
  · assumption

theorem contains_single_false {s : Str} {p : Char} (h : p ∉ s) : containsSub s [p] = false := by
  by_contra hc
  rw [Bool.not_eq_false] at hc
  exact h ((containsSub_single_iff s p).1 hc)

theorem replaceAll_eq_self_of_not_mem {p : Char} {rep s : Str} (h : p ∉ s) :
    replaceAll s [p] rep = s := replaceAll_of_not_contains (contains_single_false h)

theorem toLowerStr_eq_self {s : Str} (h : lowerFixed s) : toLowerStr s = s := by
  induction s with
  | nil => rfl
  | cons a as ih =>
    show Char.toLower a :: toLowerStr as = a :: as
    rw [h a (List.mem_cons_self _ _), ih fun c hc => h c (List.mem_cons_of_mem _ hc)]

theorem trimTrail_eq_self {s : Str} (h : hasSuffixUnd s = false) : trimTrailUnd s = s := by
  simp [trimTrailUnd, h]

theorem trimLead_eq_self {s : Str} (h : isPre ['_'] s = false) : trimLeadUnd s = s := by
  simp [trimLeadUnd, h]

theorem sanitizeReplaced_eq_self {s : Str} (hlow : toLowerStr s = s)
    (hsp : ∀ σ ∈ sanitizeSpecials, σ ∉ s) : sanitizeReplaced s = s := by
  simp only [sanitizeReplaced]
  rw [hlow]
  rw [replaceAll_eq_self_of_not_mem (hsp ' ' (by decide))]
  rw [replaceAll_eq_self_of_not_mem (hsp '-' (by decide))]
  rw [replaceAll_eq_self_of_not_mem (hsp '/' (by decide))]
  rw [replaceAll_eq_self_of_not_mem (hsp '.' (by decide))]
  rw [replaceAll_eq_self_of_not_mem (hsp '\x7b' (by decide))]
  rw [replaceAll_eq_self_of_not_mem (hsp '\x7d' (by decide))]
  rw [replaceAll_eq_self_of_not_mem (hsp ':' (by decide))]
  rw [replaceAll_eq_self_of_not_mem (hsp '?' (by decide))]
  rw [replaceAll_eq_self_of_not_mem (hsp '&' (by decide))]
  rw [replaceAll_eq_self_of_not_mem (hsp '=' (by decide))]
  rw [replaceAll_eq_self_of_not_mem (hsp '%' (by decide))]

theorem sanitizeToolName_eq_self {y : Str} (h : sanitizeTrimmed y = y) (hne : y ≠ []) :
    sanitizeToolName y = y := by
  unfold sanitizeToolName
  rw [h, if_neg hne]

/-! ### Claims C3 and C9: sanitizer output invariant and idempotence -/

/-- Claim C3, corrected: as stated the claim is false.  `sanitizeToolName`
only replaces a fixed set of characters, so an input character outside that
set — here `'!'` — passes through to the output unchanged, violating the
claimed "only lowercase ASCII letters, digits, and single underscore
separators" character-set restriction. -/
theorem sanitize_charset_counterexample :
    sanitizeToolName (S "!") = S "!" ∧ ¬ sanitaryOutputClaim (sanitizeToolName (S "!")) := by
  constructor
  · decide
  · intro h
    have := h.1 '!' (by decide)
    revert this
    decide

/-- Claim C3 (amended): for every input, the sanitizer output never contains
an uppercase ASCII letter (codes 65-90), never starts with `_`, never ends
with `_`, and never contains two consecutive underscores.  (The amendment
drops the claim that only letters, digits and `_` appear: characters outside
the replaced set pass through.) -/
theorem sanitize_output_invariant (name : Str) :
    (∀ c ∈ sanitizeToolName name, ¬(65 ≤ c.toNat ∧ c.toNat ≤ 90)) ∧
    isPre ['_'] (sanitizeToolName name) = false ∧
    hasSuffixUnd (sanitizeToolName name) = false ∧
    containsSub (sanitizeToolName name) ['_', '_'] = false := by
  refine ⟨?_, sanitize_no_lead name, sanitize_no_trail name, sanitize_no_UU name⟩
  intro c hc hup
  have hfix : c.toLower = c := lowerFixed_sanitize name c hc
  rw [← hfix] at hup
  exact charToLower_not_upper c hup

/-- Witness for the amended C3 at a concrete input: `sanitize "Get User?"`
satisfies all four invariant conjuncts. -/
theorem sanitize_output_invariant_witness :
    (∀ c ∈ sanitizeToolName (S "Get User?"), ¬(65 ≤ c.toNat ∧ c.toNat ≤ 90)) ∧
    isPre ['_'] (sanitizeToolName (S "Get User?")) = false ∧
    hasSuffixUnd (sanitizeToolName (S "Get User?")) = false ∧
    containsSub (sanitizeToolName (S "Get User?")) ['_', '_'] = false :=
  sanitize_output_invariant (S "Get User?")

/-- Claim C9 (confirmed): the sanitizer is idempotent —
`sanitize (sanitize x) = sanitize x` for every input string. -/
theorem sanitize_idempotent (x : Str) :
    sanitizeToolName (sanitizeToolName x) = sanitizeToolName x := by
  have hlow : toLowerStr (sanitizeToolName x) = sanitizeToolName x :=
    toLowerStr_eq_self (lowerFixed_sanitize x)
  have hrep : sanitizeReplaced (sanitizeToolName x) = sanitizeToolName x :=
    sanitizeReplaced_eq_self hlow (specials_not_mem_sanitize x)
  have htr : sanitizeTrimmed (sanitizeToolName x) = sanitizeToolName x := by
    unfold sanitizeTrimmed
    rw [hrep, collapseUnd_eq_self (sanitize_no_UU x),
      trimTrail_eq_self (sanitize_no_trail x), trimLead_eq_self (sanitize_no_lead x)]
  exact sanitizeToolName_eq_self htr (sanitize_ne_nil x)


/-! ### Claim C4: the `[required]` description prefix -/

theorem lookup_map_entry_ne {α : Type} {k k2 : Str} (v : α) (m : List (Str × α))
    (h : (k2 == k) = false) :
    List.lookup k2 (m.map fun e => if e.1 == k then (e.1, v) else e) = List.lookup k2 m := by
  induction m with
  | nil => rfl
  | cons e es ih =>
    simp only [List.map_cons]
    by_cases he : (e.1 == k) = true
    · rw [if_pos he]
      have hk : (k2 == e.1) = false := by
        have h1 : e.1 = k := eq_of_beq he
        rw [h1]
        exact h
      have he2 : e = (e.1, e.2) := rfl
      rw [he2, List.lookup_cons, List.lookup_cons]
      simp only [hk, ih]
    · rw [if_neg he]
      have he2 : e = (e.1, e.2) := rfl
      rw [he2, List.lookup_cons, List.lookup_cons]
      cases hc : k2 == e.1 with
      | true => rfl
      | false => exact ih

theorem lookup_append_single_ne {α : Type} {k k2 : Str} (v : α) (m : List (Str × α))
    (h : (k2 == k) = false) :
    List.lookup k2 (m ++ [(k, v)]) = List.lookup k2 m := by
  induction m with
  | nil => simp [List.lookup_cons, h]
  | cons e es ih =>
    have he2 : e = (e.1, e.2) := rfl
    rw [List.cons_append, he2, List.lookup_cons, List.lookup_cons]
    cases hc : k2 == e.1 with
    | true => rfl
    | false => exact ih

theorem lookup_mapSet_ne {α : Type} {k k2 : Str} (m : List (Str × α)) (v : α)
    (h : k2 ≠ k) : List.lookup k2 (mapSet m k v) = List.lookup k2 m := by
  have hb : (k2 == k) = false := beq_eq_false_iff_ne.2 h
  unfold mapSet
  split
  · exact lookup_map_entry_ne v m hb
  · exact lookup_append_single_ne v m hb

theorem lookup_mapSetOpt_ne {α β : Type} {k k2 : Str} (m : List (Str × α)) (o : Option β)
    (f : β → α) (h : k2 ≠ k) : List.lookup k2 (mapSetOpt m k o f) = List.lookup k2 m := by
  cases o with
  | none => rfl
  | some x => exact lookup_mapSet_ne m (f x) h

theorem lookup_addOptionalFields_description (prop : PropObj) (sch : Schema) :
    List.lookup (S "description") (addOptionalFields prop sch) =
      List.lookup (S "description") prop := by
  simp only [addOptionalFields]
  rw [lookup_mapSetOpt_ne _ _ _ (by decide), lookup_mapSetOpt_ne _ _ _ (by decide),
    lookup_mapSetOpt_ne _ _ _ (by decide)]
  split
  · rw [lookup_mapSet_ne _ _ (by decide), lookup_mapSetOpt_ne _ _ _ (by decide)]
  · rw [lookup_mapSetOpt_ne _ _ _ (by decide)]

theorem buildParamProp_description (p : ParamDesc) :
    List.lookup (S "description") (buildParamProp p) =
      some (.text (prefixRequired p.required p.description)) := by
  unfold buildParamProp
  rw [lookup_addOptionalFields_description]
  rfl

theorem buildBodyProp_description (rl : List Str) (pn : Str) (ps : Schema) :
    List.lookup (S "description") (buildBodyProp rl pn ps) =
      some (.text (prefixRequired (isRequiredField pn rl) ps.description)) := by
  unfold buildBodyProp
  rw [lookup_addOptionalFields_description]
  rfl

theorem prefixRequired_idem (req : Bool) (d : Str) :
    prefixRequired req (prefixRequired req d) = prefixRequired req d := by
  cases req with
  | false => simp [prefixRequired]
  | true =>
    by_cases hd : isPre (S "[required]") d = true
    · simp [prefixRequired, hd]
    · rw [Bool.not_eq_true] at hd
      have hpre : isPre (S "[required]") (S "[required] " ++ d) = true := by
        rw [isPre_iff]
        exact ⟨' ' :: d, rfl⟩
      simp [prefixRequired, hd, hpre]

/-- Claim C4 (confirmed): for every translated parameter description and
request-body property description, the literal marker `"[required] "` is
prepended exactly when the source is marked required and the description
does not already begin with `"[required]"`, and the prefix is applied at
most once — a description already beginning with `"[required]"` is left
unchanged, and re-applying the prefixing is the identity. -/
theorem required_prefix_applied_once (req : Bool) (d : Str) :
    (req = true → isPre (S "[required]") d = false →
      prefixRequired req d = S "[required] " ++ d) ∧
    (isPre (S "[required]") d = true → prefixRequired req d = d) ∧
    (req = false → prefixRequired req d = d) ∧
    prefixRequired req (prefixRequired req d) = prefixRequired req d ∧
    (∀ p : ParamDesc, List.lookup (S "description") (buildParamProp p) =
      some (.text (prefixRequired p.required p.description))) ∧
    (∀ (rl : List Str) (pn : Str) (ps : Schema),
      List.lookup (S "description") (buildBodyProp rl pn ps) =
        some (.text (prefixRequired (isRequiredField pn rl) ps.description))) := by
  refine ⟨?_, ?_, ?_, prefixRequired_idem req d,
    buildParamProp_description, buildBodyProp_description⟩
  · rintro rfl hpre
    simp [prefixRequired, hpre]
  · intro hpre
    simp [prefixRequired, hpre]
  · rintro rfl
    simp [prefixRequired]

/-- Witness for C4 at concrete inputs: a plain required description gets the
marker; one already starting with `[required]` is left unchanged. -/
theorem required_prefix_applied_once_witness :
    prefixRequired true (S "the id") = S "[required] the id" ∧
    prefixRequired true (S "[required] the id") = S "[required] the id" :=
  ⟨(required_prefix_applied_once true (S "the id")).1 rfl (by decide),
    (required_prefix_applied_once true (S "[required] the id")).2.1 (by decide)⟩


/-! ### The split/join characterisation of `replaceAll` (for claim C6) -/


theorem isEmpty_false_of_ne {pat : Str} (hp : pat ≠ []) : pat.isEmpty = false := by
  cases pat with
  | nil => exact absurd rfl hp
  | cons a as => rfl

theorem splitOnPatF_ne_nil {f : Nat} {pat s : Str} : splitOnPatF f pat s ≠ [] := by
  cases f with
  | zero => cases s <;> simp [splitOnPatF]
  | succ f =>
    cases s with
    | nil => simp [splitOnPatF]
    | cons c cs =>
      simp only [splitOnPatF]
      split
      · simp
      · split <;> simp

theorem joinWith_cons_cons (sep p : Str) (ps : List Str) :
    joinWith sep (p :: ps) = if ps = [] then p else p ++ sep ++ joinWith sep ps := by
  cases ps with
  | nil => simp [joinWith]
  | cons q qs => simp [joinWith]

theorem joinWith_splitOnPatF {f : Nat} {pat s : Str} (hf : s.length ≤ f) (hp : pat ≠ []) :
    joinWith pat (splitOnPatF f pat s) = s := by
  induction f generalizing s with
  | zero =>
    have hnil : s = [] := List.eq_nil_of_length_eq_zero (Nat.le_zero.1 hf)
    subst hnil
    rfl
  | succ f ih =>
    cases s with
    | nil => rfl
    | cons c cs =>
      simp only [splitOnPatF]
      by_cases hpre : isPre pat (c :: cs) = true
      · rw [if_pos (by simp [hpre, isEmpty_false_of_ne hp])]
        obtain ⟨t, ht⟩ := (isPre_iff _ _).1 hpre
        have hdrop : (c :: cs).drop pat.length = t := by
          rw [ht, List.drop_left]
        have hlen : t.length ≤ f := by
          have h1 : pat.length ≤ (c :: cs).length := isPre_length hpre
          have h2 : (c :: cs).length = pat.length + t.length := by rw [ht]; simp
          have h3 : 1 ≤ pat.length := by
            cases pat with
            | nil => exact absurd rfl hp
            | cons a as => simp
          omega
        rw [hdrop]
        rw [joinWith_cons_cons]
        rw [if_neg splitOnPatF_ne_nil]
        simp only [List.nil_append]
        rw [ih hlen, ← ht]
      · rw [if_neg (by simp [hpre])]
        have hlen : cs.length ≤ f := by simpa using Nat.le_of_succ_le_succ hf
        cases hsp : splitOnPatF f pat cs with
        | nil => exact absurd hsp splitOnPatF_ne_nil
        | cons p ps =>
          have hih : joinWith pat (p :: ps) = cs := by rw [← hsp]; exact ih hlen
          cases ps with
          | nil =>
            simp only [joinWith] at hih ⊢
            rw [hih]
          | cons q qs =>
            simp only [joinWith] at hih ⊢
            rw [List.cons_append, List.cons_append, hih]

theorem replaceAllF_joinWith {f : Nat} {pat rep s : Str} (hf : s.length ≤ f) (hp : pat ≠ []) :
    replaceAllF f pat rep s = joinWith rep (splitOnPatF f pat s) := by
  induction f generalizing s with
  | zero =>
    have hnil : s = [] := List.eq_nil_of_length_eq_zero (Nat.le_zero.1 hf)
    subst hnil
    rfl
  | succ f ih =>
    cases s with
    | nil => rfl
    | cons c cs =>
      simp only [replaceAllF, splitOnPatF]
      by_cases hpre : isPre pat (c :: cs) = true
      · rw [if_pos (by simp [hpre, isEmpty_false_of_ne hp]),
          if_pos (by simp [hpre, isEmpty_false_of_ne hp])]
        have hlen : ((c :: cs).drop pat.length).length ≤ f := by
          have h1 : pat.length ≤ (c :: cs).length := isPre_length hpre
          have h2 : 1 ≤ pat.length := by
            cases pat with
            | nil => exact absurd rfl hp
            | cons a as => simp
          rw [List.length_drop]
          simp only [List.length_cons] at *
          omega
        rw [ih hlen]
        rw [joinWith_cons_cons, if_neg splitOnPatF_ne_nil]
        simp
      · rw [if_neg (by simp [hpre]), if_neg (by simp [hpre])]
        have hlen : cs.length ≤ f := by simpa using Nat.le_of_succ_le_succ hf
        cases hsp : splitOnPatF f pat cs with
        | nil => exact absurd hsp splitOnPatF_ne_nil
        | cons p ps =>
          have hih : replaceAllF f pat rep cs = joinWith rep (p :: ps) := by
            rw [← hsp]; exact ih hlen
          cases ps with
          | nil =>
            simp only [joinWith] at hih ⊢
            rw [hih]
          | cons q qs =>
            simp only [joinWith] at hih ⊢
            rw [hih]
            simp

theorem splitOnPatF_parts {f : Nat} {pat s : Str} (hf : s.length ≤ f) (hp : pat ≠ []) :
    (∀ part ∈ splitOnPatF f pat s, containsSub part pat = false) ∧
    (∃ t, s = (splitOnPatF f pat s).headI ++ t) := by
  induction f generalizing s with
  | zero =>
    have hnil : s = [] := List.eq_nil_of_length_eq_zero (Nat.le_zero.1 hf)
    subst hnil
    constructor
    · intro part hpart
      simp only [splitOnPatF, List.mem_singleton] at hpart
      subst hpart
      show isPre pat [] = false
      cases pat with
      | nil => exact absurd rfl hp
      | cons a as => rfl
    · exact ⟨[], rfl⟩
  | succ f ih =>
    cases s with
    | nil =>
      constructor
      · intro part hpart
        simp only [splitOnPatF, List.mem_singleton] at hpart
        subst hpart
        show isPre pat [] = false
        cases pat with
        | nil => exact absurd rfl hp
        | cons a as => rfl
      · exact ⟨[], rfl⟩
    | cons c cs =>
      simp only [splitOnPatF]
      by_cases hpre : isPre pat (c :: cs) = true
      · rw [if_pos (by simp [hpre, isEmpty_false_of_ne hp])]
        have hlen : ((c :: cs).drop pat.length).length ≤ f := by
          have h1 : pat.length ≤ (c :: cs).length := isPre_length hpre
          have h2 : 1 ≤ pat.length := by
            cases pat with
            | nil => exact absurd rfl hp
            | cons a as => simp
          rw [List.length_drop]
          simp only [List.length_cons] at *
          omega
        constructor
        · intro part hpart
          rcases List.mem_cons.1 hpart with rfl | hmem
          · show isPre pat [] = false
            cases pat with
            | nil => exact absurd rfl hp
            | cons a as => rfl
          · exact (ih hlen).1 part hmem
        · exact ⟨c :: cs, rfl⟩
      · rw [if_neg (by simp [hpre])]
        have hlen : cs.length ≤ f := by simpa using Nat.le_of_succ_le_succ hf
        cases hsp : splitOnPatF f pat cs with
        | nil => exact absurd hsp splitOnPatF_ne_nil
        | cons p ps =>
          have hihAll : ∀ part ∈ p :: ps, containsSub part pat = false := by
            rw [← hsp]; exact (ih hlen).1
          have hihHead : ∃ t, cs = p ++ t := by
            have h2 := (ih hlen).2
            rw [hsp] at h2
            exact h2
          constructor
          · intro part hpart
            rcases List.mem_cons.1 hpart with rfl | hmem
            · show containsSub (c :: p) pat = false
              rw [containsSub]
              have hcp : isPre pat (c :: p) = false := by
                by_contra hcp2
                rw [Bool.not_eq_false] at hcp2
                obtain ⟨u, hu⟩ := (isPre_iff _ _).1 hcp2
                obtain ⟨t, ht⟩ := hihHead
                have hcc : c :: cs = (c :: p) ++ t := by rw [ht, List.cons_append]
                have : isPre pat (c :: cs) = true := by
                  rw [isPre_iff]
                  exact ⟨u ++ t, by rw [hcc, hu, List.append_assoc]⟩
                exact hpre this
              rw [hcp, hihAll p (List.mem_cons_self _ _)]
              rfl
            · exact hihAll part (List.mem_cons_of_mem _ hmem)
          · obtain ⟨t, ht⟩ := hihHead
            exact ⟨t, by simp [ht]⟩

theorem replaceAll_joinWith {pat rep s : Str} (hp : pat ≠ []) :
    replaceAll s pat rep = joinWith rep (splitOnPat s pat) :=
  replaceAllF_joinWith (Nat.le_refl _) hp

theorem joinWith_splitOnPat {pat s : Str} (hp : pat ≠ []) :
    joinWith pat (splitOnPat s pat) = s :=
  joinWith_splitOnPatF (Nat.le_refl _) hp

theorem splitOnPat_parts {pat s : Str} (hp : pat ≠ []) :
    ∀ part ∈ splitOnPat s pat, containsSub part pat = false :=
  (splitOnPatF_parts (Nat.le_refl _) hp).1

/-! ### Claim C6: path placeholder substitution -/

theorem substPath_nil (url : Str) : substPath url [] = url := rfl

theorem substPath_cons (url k : Str) (v : GoValue) (ps : List (Str × GoValue)) :
    substPath url ((k, v) :: ps) =
      substPath
        (if containsSub url (placeholder k) then
          replaceAll url (placeholder k) (renderPathValue v)
        else url)
        ps := rfl

theorem substPath_append (url : Str) (a b : List (Str × GoValue)) :
    substPath url (a ++ b) = substPath (substPath url a) b :=
  List.foldl_append _ _ _ _

theorem substPath_no_placeholder {url : Str} {ps : List (Str × GoValue)}
    (h : ∀ kv ∈ ps, containsSub url (placeholder kv.1) = false) :
    substPath url ps = url := by
  induction ps with
  | nil => rfl
  | cons kv rest ih =>
    have hcons := substPath_cons url kv.1 kv.2 rest
    rw [show ((kv.1, kv.2) : Str × GoValue) = kv from rfl] at hcons
    rw [hcons, if_neg (by simp [h kv (List.mem_cons_self _ _)])]
    exact ih fun e he => h e (List.mem_cons_of_mem _ he)

theorem placeholder_ne_nil (k : Str) : placeholder k ≠ [] := by
  simp [placeholder]

/-- Claim C6 (confirmed): during URL resolution, each path parameter whose
placeholder occurs in the current URL has every occurrence replaced by its
value rendered as text (the URL splits at the non-overlapping occurrences
of the placeholder, none of the fragments contains it, and the result
joins the fragments with the rendered value); `nil` renders as the empty
string and strings render literally; a parameter whose placeholder does
not occur leaves the URL unchanged, and resolution is total — placeholders
with no matching parameter simply survive, with no error. -/
theorem subst_path_resolution (url k : Str) (v : GoValue) (ps : List (Str × GoValue)) :
    (substPath url [] = url) ∧
    (substPath url ((k, v) :: ps) =
      substPath
        (if containsSub url (placeholder k) then
          replaceAll url (placeholder k) (renderPathValue v)
        else url)
        ps) ∧
    (containsSub url (placeholder k) = false → substPath url [(k, v)] = url) ∧
    renderPathValue GoValue.null = [] ∧
    (∀ s, renderPathValue (GoValue.str s) = s) ∧
    (containsSub url (placeholder k) = true →
      substPath url [(k, v)] =
          joinWith (renderPathValue v) (splitOnPat url (placeholder k)) ∧
        joinWith (placeholder k) (splitOnPat url (placeholder k)) = url ∧
        ∀ part ∈ splitOnPat url (placeholder k),
          containsSub part (placeholder k) = false) ∧
    ((∀ kv ∈ ps, containsSub url (placeholder kv.1) = false) → substPath url ps = url) := by
  refine ⟨rfl, substPath_cons url k v ps, ?_, rfl, fun _ => rfl, ?_, substPath_no_placeholder⟩
  · intro h
    rw [substPath_cons, if_neg (by simp [h])]
    rfl
  · intro h
    refine ⟨?_, joinWith_splitOnPat (placeholder_ne_nil k),
      splitOnPat_parts (placeholder_ne_nil k)⟩
    rw [substPath_cons, if_pos h]
    exact replaceAll_joinWith (placeholder_ne_nil k)

/-- Witness for C6 at the spec's example: template `/users/{id}` with
`id = 42` resolves to `/users/42`. -/
theorem subst_path_resolution_witness :
    substPath (S "/users/\x7bid\x7d") [(S "id", GoValue.num 42)] = S "/users/42" := by
  rw [(subst_path_resolution (S "/users/\x7bid\x7d") (S "id") (GoValue.num 42) []).2.1]
  decide

/-! ### Claim C2: grouped/legacy argument classification -/

theorem classify_fold_spec (url : Str) (params : List (Str × GoValue)) (acc : Classified) :
    params.foldl
      (fun acc kv =>
        if containsSub url (placeholder kv.1) then
          { acc with pathParams := acc.pathParams ++ [kv] }
        else
          { acc with bodyParams := acc.bodyParams ++ [kv] })
      acc =
    ⟨acc.pathParams ++ params.filter fun kv => containsSub url (placeholder kv.1),
     acc.queryParams,
     acc.bodyParams ++ params.filter fun kv => !(containsSub url (placeholder kv.1))⟩ := by
  induction params generalizing acc with
  | nil =>
    cases acc
    simp
  | cons kv rest ih =>
    simp only [List.foldl_cons, List.filter_cons]
    by_cases hc : containsSub url (placeholder kv.1) = true
    · rw [if_pos hc, ih]
      simp [hc]
    · rw [Bool.not_eq_true] at hc
      rw [if_neg (by simp [hc]), ih]
      simp [hc]

/-- Claim C2 counterexample: with arguments containing the group key
`pathNames` as an (empty) nested map, the spec's classification uses the
group maps directly (everything empty), but the code's all-empty test
sends it to the legacy fallback, which classifies the `pathNames` entry
itself as a body parameter — the two classifications differ. -/
theorem classify_grouped_counterexample :
    (classifyParams (S "/x") [(S "pathNames", GoValue.obj [])]).bodyParams.length = 1 ∧
    (classifySpec (S "/x") [(S "pathNames", GoValue.obj [])]).bodyParams.length = 0 ∧
    classifyParams (S "/x") [(S "pathNames", GoValue.obj [])] ≠
      classifySpec (S "/x") [(S "pathNames", GoValue.obj [])] := by
  refine ⟨by decide, by decide, fun h => ?_⟩
  exact absurd (congrArg (fun c : Classified => c.bodyParams.length) h) (by decide)

/-- Claim C2 (amended): the three group maps are used directly only when at
least one of them is non-empty; otherwise — including when group keys are
present as empty nested maps — every top-level key is classified by the
legacy rule: a path parameter exactly when the template contains the
literal `{key}` substring, a body parameter otherwise, and never a query
parameter. -/
theorem classify_params_amended (url : Str) (params : List (Str × GoValue)) :
    (¬((asGroupMap params (S "pathNames")).length = 0 ∧
        (asGroupMap params (S "searchParams")).length = 0 ∧
        (asGroupMap params (S "requestBody")).length = 0) →
      classifyParams url params =
        ⟨asGroupMap params (S "pathNames"), asGroupMap params (S "searchParams"),
          asGroupMap params (S "requestBody")⟩) ∧
    (((asGroupMap params (S "pathNames")).length = 0 ∧
        (asGroupMap params (S "searchParams")).length = 0 ∧
        (asGroupMap params (S "requestBody")).length = 0) →
      classifyParams url params =
        ⟨params.filter fun kv => containsSub url (placeholder kv.1),
         [],
         params.filter fun kv => !(containsSub url (placeholder kv.1))⟩) := by
  constructor
  · intro h
    unfold classifyParams
    rw [if_neg h]
  · intro h
    unfold classifyParams
    rw [if_pos h, classify_fold_spec]
    simp

/-- Witness for the amended C2 at the spec's fallback example: ungrouped
arguments `id` and `name` with template `/users/{id}` classify `id` as a
path parameter and `name` as a body parameter, and nothing as a query
parameter. -/
theorem classify_params_amended_witness :
    classifyParams (S "/users/\x7bid\x7d")
        [(S "id", GoValue.num 1), (S "name", GoValue.str (S "x"))] =
      ⟨[(S "id", GoValue.num 1)], [], [(S "name", GoValue.str (S "x"))]⟩ := by
  rw [(classify_params_amended (S "/users/\x7bid\x7d")
    [(S "id", GoValue.num 1), (S "name", GoValue.str (S "x"))]).2 (by decide)]
  rfl

/-! ### Claim C10: a path parameter with no matching placeholder -/

theorem classify_grouped (url : Str) (pp qp bp : List (Str × GoValue)) (hne : pp ≠ []) :
    classifyParams url
        [(S "pathNames", .obj pp), (S "searchParams", .obj qp), (S "requestBody", .obj bp)] =
      ⟨pp, qp, bp⟩ := by
  unfold classifyParams
  rw [if_neg]
  · rfl
  · intro hcond
    have h2 : pp.length = 0 := hcond.1
    exact hne (List.eq_nil_of_length_eq_zero h2)

/-- Claim C10 counterexample: the template `/x/{a}` has no `{b}`
placeholder, yet two grouped invocations differing only in the value of
the path parameter `b` produce different resolved URLs, because the value
substituted for `a` introduces the text `{b}` into the URL, which the
later iteration for `b` then substitutes. -/
theorem path_param_unused_counterexample :
    containsSub (S "/x/\x7ba\x7d") (placeholder (S "b")) = false ∧
    substPath (S "/x/\x7ba\x7d")
        [(S "a", GoValue.str (S "\x7bb\x7d")), (S "b", GoValue.str (S "1"))] = S "/x/1" ∧
    substPath (S "/x/\x7ba\x7d")
        [(S "a", GoValue.str (S "\x7bb\x7d")), (S "b", GoValue.str (S "2"))] = S "/x/2" ∧
    substPath (S "/x/\x7ba\x7d")
        [(S "a", GoValue.str (S "\x7bb\x7d")), (S "b", GoValue.str (S "1"))] ≠
      substPath (S "/x/\x7ba\x7d")
        [(S "a", GoValue.str (S "\x7bb\x7d")), (S "b", GoValue.str (S "2"))] := by
  refine ⟨by decide, by decide, by decide, by decide⟩

/-- Claim C10 (amended): in grouped mode, a path parameter whose placeholder
does not occur in the URL at the moment it is processed — in particular,
one whose placeholder neither occurs in the template nor is introduced by
an earlier parameter's substituted value — contributes nothing to the
resolved request: the URL, query string, body and headers are identical
for any two values of that parameter. -/
theorem path_param_unused_amended (method url : Str) (hs : List (Str × Str))
    (l1 l2 qp bp : List (Str × GoValue)) (k : Str) (v v2 : GoValue)
    (h : containsSub (substPath url l1) (placeholder k) = false) :
    substPath url (l1 ++ (k, v) :: l2) = substPath url (l1 ++ (k, v2) :: l2) ∧
    resolveRequest method url hs
        [(S "pathNames", .obj (l1 ++ (k, v) :: l2)), (S "searchParams", .obj qp),
         (S "requestBody", .obj bp)] =
      resolveRequest method url hs
        [(S "pathNames", .obj (l1 ++ (k, v2) :: l2)), (S "searchParams", .obj qp),
         (S "requestBody", .obj bp)] := by
  have hskip : ∀ w : GoValue,
      substPath url (l1 ++ (k, w) :: l2) = substPath (substPath url l1) l2 := by
    intro w
    rw [substPath_append, substPath_cons, if_neg (by simp [h])]
  have hurl : substPath url (l1 ++ (k, v) :: l2) = substPath url (l1 ++ (k, v2) :: l2) := by
    rw [hskip v, hskip v2]
  refine ⟨hurl, ?_⟩
  unfold resolveRequest
  rw [classify_grouped _ _ _ _ (by simp), classify_grouped _ _ _ _ (by simp)]
  dsimp only
  rw [hurl]

/-- Witness for the amended C10: with template `/users/{id}`, a parameter
`skip` with no placeholder anywhere leaves the resolved URL (and request)
unchanged whatever its value. -/
theorem path_param_unused_amended_witness :
    substPath (S "/users/\x7bid\x7d")
        [(S "id", GoValue.num 7), (S "skip", GoValue.num 1)] =
      substPath (S "/users/\x7bid\x7d")
        [(S "id", GoValue.num 7), (S "skip", GoValue.num 2)] :=
  (path_param_unused_amended (S "GET") (S "/users/\x7bid\x7d") []
    [(S "id", GoValue.num 7)] [] [] [] (S "skip") (GoValue.num 1) (GoValue.num 2)
    (by decide)).1

/-! ### Claim C7: the query phase -/


theorem strLeB_total : ∀ a b : Str, strLeB a b = true ∨ strLeB b a = true := by
  intro a
  induction a with
  | nil => intro b; left; rfl
  | cons x xs ih =>
    intro b
    cases b with
    | nil => right; rfl
    | cons y ys =>
      simp only [strLeB]
      by_cases h1 : x.toNat < y.toNat
      · left
        rw [if_pos h1]
      · by_cases h2 : y.toNat < x.toNat
        · right
          rw [if_pos h2]
        · rw [if_neg h1, if_neg h2, if_neg h2, if_neg h1]
          exact ih ys

theorem strLeB_trans :
    ∀ a b c : Str, strLeB a b = true → strLeB b c = true → strLeB a c = true := by
  intro a
  induction a with
  | nil => intro b c _ _; rfl
  | cons x xs ih =>
    intro b c hab hbc
    cases b with
    | nil => simp [strLeB] at hab
    | cons y ys =>
      cases c with
      | nil => simp [strLeB] at hbc
      | cons z zs =>
        simp only [strLeB] at hab hbc ⊢
        have hxy : x.toNat < y.toNat ∨ (x.toNat = y.toNat ∧ strLeB xs ys = true) := by
          by_cases ha : x.toNat < y.toNat
          · exact Or.inl ha
          · by_cases hb : y.toNat < x.toNat
            · rw [if_neg ha, if_pos hb] at hab
              cases hab
            · rw [if_neg ha, if_neg hb] at hab
              exact Or.inr ⟨by omega, hab⟩
        have hyz : y.toNat < z.toNat ∨ (y.toNat = z.toNat ∧ strLeB ys zs = true) := by
          by_cases ha : y.toNat < z.toNat
          · exact Or.inl ha
          · by_cases hb : z.toNat < y.toNat
            · rw [if_neg ha, if_pos hb] at hbc
              cases hbc
            · rw [if_neg ha, if_neg hb] at hbc
              exact Or.inr ⟨by omega, hbc⟩
        rcases hxy with hxy | ⟨hxy, hrec1⟩
        · rcases hyz with hyz | ⟨hyz, -⟩
          · rw [if_pos (by omega)]
          · rw [if_pos (by omega)]
        · rcases hyz with hyz | ⟨hyz, hrec2⟩
          · rw [if_pos (by omega)]
          · rw [if_neg (by omega), if_neg (by omega)]
            exact ih ys zs hrec1 hrec2

instance instTotalKeyLe {α : Type} : IsTotal (Str × α) keyLe :=
  ⟨fun x y => strLeB_total x.1 y.1⟩

instance instTransKeyLe {α : Type} : IsTrans (Str × α) keyLe :=
  ⟨fun x y z => strLeB_trans x.1 y.1 z.1⟩

theorem sortByKey_sorted {α : Type} (l : List (Str × α)) :
    List.Pairwise keyLe (sortByKey l) :=
  List.sorted_insertionSort keyLe l

theorem sortByKey_perm {α : Type} (l : List (Str × α)) : List.Perm (sortByKey l) l :=
  List.perm_insertionSort keyLe l

theorem valuesAdd_preserve {q : QueryValues} {k : Str} {vl : List Str} {sv : Str}
    (hmem : (k, vl) ∈ q) (hsv : sv ∈ vl) (k2 v2 : Str) :
    ∃ vl2, (k, vl2) ∈ valuesAdd q k2 v2 ∧ sv ∈ vl2 := by
  unfold valuesAdd
  split
  · refine ⟨if k == k2 then vl ++ [v2] else vl, ?_, ?_⟩
    · refine List.mem_map.2 ⟨(k, vl), hmem, ?_⟩
      cases hk : k == k2 <;> simp [hk]
    · cases hk : k == k2 with
      | true =>
        simp only [if_pos]
        exact List.mem_append_left _ hsv
      | false => simpa using hsv
  · exact ⟨vl, List.mem_append_left _ hmem, hsv⟩

theorem valuesAdd_self (q : QueryValues) (k v : Str) :
    ∃ vl, (k, vl) ∈ valuesAdd q k v ∧ v ∈ vl := by
  unfold valuesAdd
  split
  · rename_i hany
    rw [List.any_eq_true] at hany
    obtain ⟨e, hmem, hek⟩ := hany
    have hek2 : e.1 = k := eq_of_beq hek
    refine ⟨e.2 ++ [v], ?_, List.mem_append_right _ (List.mem_singleton.2 rfl)⟩
    refine List.mem_map.2 ⟨e, hmem, ?_⟩
    simp [hek, hek2]
  · exact ⟨[v], List.mem_append_right _ (List.mem_singleton.2 rfl),
      List.mem_singleton.2 rfl⟩

theorem addAllQuery_preserve {q : QueryValues} {k : Str} {vl : List Str} {sv : Str}
    (hmem : (k, vl) ∈ q) (hsv : sv ∈ vl) (qs : List (Str × GoValue)) :
    ∃ vl2, (k, vl2) ∈ addAllQuery q qs ∧ sv ∈ vl2 := by
  induction qs generalizing q vl with
  | nil => exact ⟨vl, hmem, hsv⟩
  | cons kv rest ih =>
    show ∃ vl2, (k, vl2) ∈ addAllQuery
      (match renderQueryValue kv.2 with
        | none => q
        | some sv2 => valuesAdd q kv.1 sv2) rest ∧ sv ∈ vl2
    cases hrv : renderQueryValue kv.2 with
    | none => exact ih hmem hsv
    | some sv2 =>
      obtain ⟨vl2, hmem2, hsv2⟩ := valuesAdd_preserve hmem hsv kv.1 sv2
      exact ih hmem2 hsv2

theorem addAllQuery_member (q : QueryValues) (qs : List (Str × GoValue)) :
    ∀ kv ∈ qs, ∀ sv, renderQueryValue kv.2 = some sv →
      ∃ vl, (kv.1, vl) ∈ addAllQuery q qs ∧ sv ∈ vl := by
  induction qs generalizing q with
  | nil => intro kv h; cases h
  | cons kv0 rest ih =>
    intro kv hkv sv hsv
    show ∃ vl, (kv.1, vl) ∈ addAllQuery
      (match renderQueryValue kv0.2 with
        | none => q
        | some sv2 => valuesAdd q kv0.1 sv2) rest ∧ sv ∈ vl
    rcases List.mem_cons.1 hkv with rfl | hmem
    · rw [hsv]
      obtain ⟨vl, hm, hv⟩ := valuesAdd_self q kv.1 sv
      exact addAllQuery_preserve hm hv rest
    · cases hrv : renderQueryValue kv0.2 with
      | none => exact ih _ kv hmem sv hsv
      | some sv2 => exact ih _ kv hmem sv hsv

theorem valuesAdd_keys {q : QueryValues} {k2 : Str} (k v : Str)
    (hq : ∀ e ∈ q, e.1 ≠ k2) (hk : k ≠ k2) :
    ∀ e ∈ valuesAdd q k v, e.1 ≠ k2 := by
  unfold valuesAdd
  split
  · intro e he
    obtain ⟨e0, he0, heq⟩ := List.mem_map.1 he
    have : e.1 = e0.1 := by
      by_cases h0 : (e0.1 == k) = true
      · rw [if_pos h0] at heq
        rw [← heq]
      · rw [Bool.not_eq_true] at h0
        rw [if_neg (by simp [h0])] at heq
        rw [← heq]
    rw [this]
    exact hq e0 he0
  · intro e he
    rcases List.mem_append.1 he with he | he
    · exact hq e he
    · rw [List.mem_singleton.1 he]
      exact hk

theorem addAllQuery_null_absent (q0 : QueryValues) (qs : List (Str × GoValue)) (k2 : Str)
    (hq : ∀ e ∈ q0, e.1 ≠ k2) (hqs : ∀ kv ∈ qs, kv.1 = k2 → kv.2 = GoValue.null) :
    ∀ e ∈ addAllQuery q0 qs, e.1 ≠ k2 := by
  induction qs generalizing q0 with
  | nil => exact hq
  | cons kv0 rest ih =>
    show ∀ e ∈ addAllQuery
      (match renderQueryValue kv0.2 with
        | none => q0
        | some sv2 => valuesAdd q0 kv0.1 sv2) rest, e.1 ≠ k2
    cases hrv : renderQueryValue kv0.2 with
    | none =>
      exact ih q0 hq fun kv hm => hqs kv (List.mem_cons_of_mem _ hm)
    | some sv2 =>
      have hk0 : kv0.1 ≠ k2 := by
        intro hk
        have hnull := hqs kv0 (List.mem_cons_self _ _) hk
        rw [hnull] at hrv
        cases hrv
      exact ih _ (valuesAdd_keys kv0.1 sv2 hq hk0)
        fun kv hm => hqs kv (List.mem_cons_of_mem _ hm)

theorem addAllQuery_filter (q0 : QueryValues) (qs : List (Str × GoValue)) :
    addAllQuery q0 qs =
      addAllQuery q0 (qs.filter fun kv => (renderQueryValue kv.2).isSome) := by
  induction qs generalizing q0 with
  | nil => rfl
  | cons kv rest ih =>
    simp only [List.filter_cons]
    have hstep : ∀ (q : QueryValues) (kv2 : Str × GoValue) (l : List (Str × GoValue)),
        addAllQuery q (kv2 :: l) =
          addAllQuery
            (match renderQueryValue kv2.2 with
              | none => q
              | some sv => valuesAdd q kv2.1 sv) l := fun _ _ _ => rfl
    cases hrv : renderQueryValue kv.2 with
    | none =>
      rw [if_neg (by simp [hrv]), hstep, hrv]
      exact ih q0
    | some sv =>
      rw [if_pos (by simp [hrv]), hstep, hrv, hstep q0 kv, hrv]
      exact ih (valuesAdd q0 kv.1 sv)

theorem addQueryParams_pos (u : Str) (qs : List (Str × GoValue)) (h : 0 < qs.length) :
    addQueryParams u qs =
      urlString { urlParse u with
        rawQuery := valuesEncode (addAllQuery (parseQuery (urlParse u).rawQuery) qs) } := by
  unfold addQueryParams
  rw [if_pos h]

/-- Claim C7 (confirmed): when at least one query parameter exists, the URL
is parsed and every non-nil query parameter is added to the existing query
values — parameters whose value is nil are skipped entirely (the fold is
unchanged by removing them) and contribute no key — and the re-encoded
query uses the encoding routine's percent-escaping with keys emitted in
sorted (deterministic) order; with no query parameters the URL is left
completely untouched. -/
theorem query_phase_resolution (u : Str) (qs : List (Str × GoValue)) (q0 : QueryValues) :
    (addQueryParams u [] = u) ∧
    (0 < qs.length → addQueryParams u qs =
      urlString { urlParse u with
        rawQuery := valuesEncode (addAllQuery (parseQuery (urlParse u).rawQuery) qs) }) ∧
    (addAllQuery q0 qs =
      addAllQuery q0 (qs.filter fun kv => (renderQueryValue kv.2).isSome)) ∧
    (∀ kv ∈ qs, ∀ sv, renderQueryValue kv.2 = some sv →
      ∃ vl, (kv.1, vl) ∈ addAllQuery q0 qs ∧ sv ∈ vl) ∧
    (∀ k2 : Str, (∀ e ∈ q0, e.1 ≠ k2) → (∀ kv ∈ qs, kv.1 = k2 → kv.2 = GoValue.null) →
      ∀ e ∈ addAllQuery q0 qs, e.1 ≠ k2) ∧
    List.Pairwise keyLe (sortByKey q0) ∧
    List.Perm (sortByKey q0) q0 :=
  ⟨rfl, addQueryParams_pos u qs, addAllQuery_filter q0 qs, addAllQuery_member q0 qs,
    addAllQuery_null_absent q0 qs, sortByKey_sorted q0, sortByKey_perm q0⟩

/-- Witness for C7 at the spec's example: `searchParams
`{"q": "a b", "skip": null}` on `/users/42` yields `q=a+b` and omits
`skip` entirely. -/
theorem query_phase_resolution_witness :
    addQueryParams (S "/users/42")
        [(S "q", GoValue.str (S "a b")), (S "skip", GoValue.null)] = S "/users/42?q=a+b" := by
  rw [(query_phase_resolution (S "/users/42")
    [(S "q", GoValue.str (S "a b")), (S "skip", GoValue.null)] []).2.1 (by decide)]
  decide

/-! ### Claim C8: request body and headers -/


theorem headerKeyEq_iff (a b : Str) : headerKeyEq a b = true ↔ toLowerStr a = toLowerStr b := by
  unfold headerKeyEq
  exact beq_iff_eq

theorem headerKeyEq_refl (a : Str) : headerKeyEq a a = true := by
  rw [headerKeyEq_iff]

theorem headerKeyEq_false_comm {a b : Str} (h : headerKeyEq a b = false) :
    headerKeyEq b a = false := by
  by_contra hc
  rw [Bool.not_eq_false, headerKeyEq_iff] at hc
  rw [← Bool.not_eq_true, headerKeyEq_iff] at h
  exact h hc.symm

theorem headerKeyEq_trans {a b c : Str} (h1 : headerKeyEq a b = true)
    (h2 : headerKeyEq b c = true) : headerKeyEq a c = true := by
  rw [headerKeyEq_iff] at *
  exact h1.trans h2

theorem headerGet_headerSet_eq (hs : List (Str × Str)) (k v : Str) :
    headerGet (headerSet hs k v) k = some v := by
  unfold headerSet
  split
  · rename_i hany
    unfold headerGet
    induction hs with
    | nil => cases hany
    | cons e es ih =>
      simp only [List.map_cons]
      by_cases he : headerKeyEq e.1 k = true
      · rw [if_pos he]
        simp only [List.find?]
        rw [show headerKeyEq (e.1, v).1 k = true from he]
        rfl
      · rw [Bool.not_eq_true] at he
        rw [if_neg (by simp [he])]
        simp only [List.find?]
        rw [show headerKeyEq e.1 k = false from he]
        have hany2 : (es.any fun e => headerKeyEq e.1 k) = true := by
          rw [List.any_cons] at hany
          rcases Bool.or_eq_true_iff.1 hany with h | h
          · rw [he] at h
            cases h
          · exact h
        exact ih hany2
  · unfold headerGet
    induction hs with
    | nil =>
      simp only [List.nil_append, List.find?]
      rw [headerKeyEq_refl]
      rfl
    | cons e es ih =>
      rename_i hany
      simp only [List.cons_append, List.find?]
      have he : headerKeyEq e.1 k = false := by
        by_contra hc
        rw [Bool.not_eq_false] at hc
        exact hany (by rw [List.any_cons, hc]; rfl)
      rw [he]
      exact ih (by
        intro hc
        exact hany (by rw [List.any_cons, hc, Bool.or_true]))

theorem headerGet_headerSet_ne (hs : List (Str × Str)) (k v k2 : Str)
    (h : headerKeyEq k2 k = false) :
    headerGet (headerSet hs k v) k2 = headerGet hs k2 := by
  unfold headerSet
  split
  · rename_i hany
    clear hany
    unfold headerGet
    induction hs with
    | nil => rfl
    | cons e es ih =>
      simp only [List.map_cons, List.find?]
      by_cases he : headerKeyEq e.1 k = true
      · rw [if_pos he]
        have hk2e : headerKeyEq e.1 k2 = false := by
          by_contra hc
          rw [Bool.not_eq_false] at hc
          have h1 : headerKeyEq k2 e.1 = true := by
            rw [headerKeyEq_iff] at hc ⊢
            exact hc.symm
          have h2 := headerKeyEq_trans h1 he
          rw [h2] at h
          cases h
        rw [show headerKeyEq (e.1, v).1 k2 = false from hk2e]
        exact ih
      · rw [Bool.not_eq_true] at he
        rw [if_neg (by simp [he])]
        cases hk2e : headerKeyEq e.1 k2 with
        | true => rfl
        | false => exact ih
  · rename_i hany
    clear hany
    unfold headerGet
    induction hs with
    | nil =>
      simp [List.find?, headerKeyEq_false_comm h]
    | cons e es ih =>
      simp only [List.cons_append, List.find?]
      cases hk2e : headerKeyEq e.1 k2 with
      | true => rfl
      | false => exact ih

theorem applyExtraHeaders_get_absent (extra : List (Str × Str)) (h0 : List (Str × Str))
    (k : Str) (h : ∀ kv ∈ extra, headerKeyEq k kv.1 = false) :
    headerGet (applyExtraHeaders h0 extra) k = headerGet h0 k := by
  induction extra generalizing h0 with
  | nil => rfl
  | cons kv rest ih =>
    show headerGet (applyExtraHeaders (headerSet h0 kv.1 kv.2) rest) k = _
    rw [ih _ fun e he => h e (List.mem_cons_of_mem _ he)]
    exact headerGet_headerSet_ne h0 kv.1 kv.2 k (h kv (List.mem_cons_self _ _))

theorem applyExtraHeaders_get_mem (extra : List (Str × Str)) (h0 : List (Str × Str))
    (hdist : List.Pairwise (fun a b : Str × Str => headerKeyEq a.1 b.1 = false) extra) :
    ∀ kv ∈ extra, headerGet (applyExtraHeaders h0 extra) kv.1 = some kv.2 := by
  induction extra generalizing h0 with
  | nil => intro kv h; cases h
  | cons kv0 rest ih =>
    intro kv hkv
    show headerGet (applyExtraHeaders (headerSet h0 kv0.1 kv0.2) rest) kv.1 = some kv.2
    rcases List.mem_cons.1 hkv with rfl | hmem
    · rw [applyExtraHeaders_get_absent rest _ kv.1
        fun e he => (List.pairwise_cons.1 hdist).1 e he]
      exact headerGet_headerSet_eq h0 kv.1 kv.2
    · exact ih _ (List.pairwise_cons.1 hdist).2 kv hmem

/-- Claim C8 (confirmed): the request carries the JSON serialisation of the
body parameter map and the `Content-Type: application/json` header exactly
when at least one body parameter exists (with no body parameters, this
path sets no `Content-Type`), and every statically configured extra header
is applied afterwards, overwriting any header set earlier on key
collision; keys that collide with no extra header keep their earlier
value.  (The extra headers come from a Go map, so their keys are pairwise
distinct; the override conjuncts assume that canonical-key
distinctness.) -/
theorem request_body_and_headers (bp : List (Str × GoValue)) (extra : List (Str × Str)) :
    (0 < bp.length → buildBody bp = some (jsonMarshal (GoValue.obj bp))) ∧
    (bp.length = 0 → buildBody bp = none) ∧
    ((∀ kv ∈ extra, headerKeyEq (S "Content-Type") kv.1 = false) →
      headerGet (buildHeaders true extra) (S "Content-Type") =
        some (S "application/json")) ∧
    ((∀ kv ∈ extra, headerKeyEq (S "Content-Type") kv.1 = false) →
      headerGet (buildHeaders false extra) (S "Content-Type") = none) ∧
    (List.Pairwise (fun a b : Str × Str => headerKeyEq a.1 b.1 = false) extra →
      ∀ (hb : Bool), ∀ kv ∈ extra,
        headerGet (buildHeaders hb extra) kv.1 = some kv.2) ∧
    (∀ (hb : Bool) (k : Str), (∀ kv ∈ extra, headerKeyEq k kv.1 = false) →
      headerGet (buildHeaders hb extra) k =
        headerGet
          (if hb then headerSet [] (S "Content-Type") (S "application/json") else []) k) ∧
    (∀ (m u : Str) (args : List (Str × GoValue)),
      (resolveRequest m u extra args).body =
          buildBody (classifyParams u args).bodyParams ∧
        (resolveRequest m u extra args).headers =
          buildHeaders (buildBody (classifyParams u args).bodyParams).isSome extra) := by
  refine ⟨?_, ?_, ?_, ?_, ?_, ?_, fun m u args => ⟨rfl, rfl⟩⟩
  · intro h
    unfold buildBody
    rw [if_pos h]
  · intro h
    unfold buildBody
    rw [if_neg (by omega)]
  · intro h
    unfold buildHeaders
    rw [applyExtraHeaders_get_absent extra _ _ h]
    exact headerGet_headerSet_eq [] _ _
  · intro h
    unfold buildHeaders
    rw [applyExtraHeaders_get_absent extra _ _ h]
    rfl
  · intro hdist hb kv hkv
    exact applyExtraHeaders_get_mem extra _ hdist kv hkv
  · intro hb k h
    unfold buildHeaders
    rw [applyExtraHeaders_get_absent extra _ _ h]

/-- Witness for C8 at the spec's example: body `{"name": "x"}` marshals to
the JSON text and sets `Content-Type: application/json`; with no body, no
`Content-Type` is set. -/
theorem request_body_and_headers_witness :
    buildBody [(S "name", GoValue.str (S "x"))] = some (S "\x7b\"name\":\"x\"\x7d") ∧
    headerGet (buildHeaders true []) (S "Content-Type") = some (S "application/json") ∧
    headerGet (buildHeaders false []) (S "Content-Type") = none := by
  refine ⟨?_, ?_, ?_⟩
  · rw [(request_body_and_headers [(S "name", GoValue.str (S "x"))] []).1 (by decide)]
    decide
  · exact (request_body_and_headers [] []).2.2.1 (by intro kv h; cases h)
  · exact (request_body_and_headers [] []).2.2.2.1 (by intro kv h; cases h)

/-! ### Claim C1: which parameter groups the translator emits -/


theorem any_if_singleton {α : Type} (c : Prop) [Decidable c] (e : α) (p : α → Bool) :
    (if c then [e] else []).any p = if c then p e else false := by
  split <;> simp

theorem hasGroup_translateOp (pfx : Str) (api : APIDesc) (gname : Str) :
    hasGroup (translateOp pfx api) gname =
      ((if 0 < (paramAccOf api).queryProps.length then S "searchParams" == gname
        else false) ||
       (if 0 < (paramAccOf api).pathProps.length then S "pathNames" == gname
        else false) ||
       (match api.requestBody with
        | some rb => if 0 < rb.content.length then S "requestBody" == gname else false
        | none => false)) := by
  unfold translateOp hasGroup
  dsimp only
  rw [List.any_append, List.any_append, any_if_singleton, any_if_singleton]
  rcases api.requestBody with - | rb
  · rfl
  · dsimp only
    rw [any_if_singleton]

theorem translate_searchParams_iff (pfx : Str) (api : APIDesc) :
    hasGroup (translateOp pfx api) (S "searchParams") = true ↔
      0 < (paramAccOf api).queryProps.length := by
  rw [hasGroup_translateOp]
  by_cases hq : 0 < (paramAccOf api).queryProps.length
  · simp [hq]
  · rw [if_neg hq]
    simp only [Bool.false_or]
    have hB : (if 0 < (paramAccOf api).pathProps.length then
        S "pathNames" == S "searchParams" else false) = false := by
      rw [show (S "pathNames" == S "searchParams") = false from by decide, ite_self]
    have hC : (match api.requestBody with
        | some rb => if 0 < rb.content.length then S "requestBody" == S "searchParams"
          else false
        | none => false) = false := by
      rcases api.requestBody with - | rb
      · rfl
      · dsimp only
        rw [show (S "requestBody" == S "searchParams") = false from by decide, ite_self]
    rw [hB, hC]
    simp [hq]

theorem translate_pathNames_iff (pfx : Str) (api : APIDesc) :
    hasGroup (translateOp pfx api) (S "pathNames") = true ↔
      0 < (paramAccOf api).pathProps.length := by
  rw [hasGroup_translateOp]
  have hA : (if 0 < (paramAccOf api).queryProps.length then
      S "searchParams" == S "pathNames" else false) = false := by
    rw [show (S "searchParams" == S "pathNames") = false from by decide, ite_self]
  rw [hA]
  simp only [Bool.false_or]
  by_cases hp : 0 < (paramAccOf api).pathProps.length
  · simp [hp]
  · rw [if_neg hp]
    simp only [Bool.false_or]
    have hC : (match api.requestBody with
        | some rb => if 0 < rb.content.length then S "requestBody" == S "pathNames"
          else false
        | none => false) = false := by
      rcases api.requestBody with - | rb
      · rfl
      · dsimp only
        rw [show (S "requestBody" == S "pathNames") = false from by decide, ite_self]
    rw [hC]
    simp [hp]

theorem translate_requestBody_iff (pfx : Str) (api : APIDesc) :
    hasGroup (translateOp pfx api) (S "requestBody") = true ↔
      (∃ rb, api.requestBody = some rb ∧ 0 < rb.content.length) := by
  rw [hasGroup_translateOp]
  have hA : (if 0 < (paramAccOf api).queryProps.length then
      S "searchParams" == S "requestBody" else false) = false := by
    rw [show (S "searchParams" == S "requestBody") = false from by decide, ite_self]
  have hB : (if 0 < (paramAccOf api).pathProps.length then
      S "pathNames" == S "requestBody" else false) = false := by
    rw [show (S "pathNames" == S "requestBody") = false from by decide, ite_self]
  rw [hA, hB]
  simp only [Bool.false_or]
  rcases hrb : api.requestBody with - | rb
  · simp [hrb]
  · dsimp only
    by_cases h3 : 0 < rb.content.length
    · rw [if_pos h3, show (S "requestBody" == S "requestBody") = true from by decide]
      simp [hrb, h3]
    · rw [if_neg h3]
      simp [hrb, h3]

theorem translate_props_nonempty (pfx : Str) (api : APIDesc) :
    ∀ g ∈ (translateOp pfx api).groups,
      g.1 = S "searchParams" ∨ g.1 = S "pathNames" → 0 < g.2.properties.length := by
  intro g hg hname
  unfold translateOp at hg
  dsimp only at hg
  rcases List.mem_append.1 hg with hg12 | hg3
  · rcases List.mem_append.1 hg12 with hg1 | hg2
    · by_cases hq : 0 < (paramAccOf api).queryProps.length
      · rw [if_pos hq] at hg1
        rw [List.mem_singleton.1 hg1]
        exact hq
      · rw [if_neg hq] at hg1
        cases hg1
    · by_cases hp : 0 < (paramAccOf api).pathProps.length
      · rw [if_pos hp] at hg2
        rw [List.mem_singleton.1 hg2]
        exact hp
      · rw [if_neg hp] at hg2
        cases hg2
  · rcases hrb : api.requestBody with - | rb
    · rw [hrb] at hg3
      cases hg3
    · rw [hrb] at hg3
      dsimp only at hg3
      by_cases h3 : 0 < rb.content.length
      · rw [if_pos h3] at hg3
        have hgeq := List.mem_singleton.1 hg3
        rw [hgeq] at hname
        rcases hname with h | h
        · exact absurd (show S "requestBody" = S "searchParams" from h) (by decide)
        · exact absurd (show S "requestBody" = S "pathNames" from h) (by decide)
      · rw [if_neg h3] at hg3
        cases hg3

/-- Claim C1 counterexample: an operation whose request-body descriptor
declares one content entry with a nil schema (so the flattened property
map is empty) still gets a `requestBody` group in its translated schema —
the "a group is omitted entirely when it has no properties" invariant
fails for the body group. -/
theorem requestBody_group_counterexample :
    hasGroup
        (translateOp (S "t")
          ⟨S "op", S "", S "", S "GET", S "/x", [],
            some ⟨[(S "application/json", ⟨none⟩)]⟩⟩)
        (S "requestBody") = true ∧
    ¬ groupsOmittedWhenEmpty
      (translateOp (S "t")
        ⟨S "op", S "", S "", S "GET", S "/x", [],
          some ⟨[(S "application/json", ⟨none⟩)]⟩⟩) := by
  constructor
  · decide
  · intro h
    have hgroups : (translateOp (S "t")
        ⟨S "op", S "", S "", S "GET", S "/x", [],
          some ⟨[(S "application/json", ⟨none⟩)]⟩⟩).groups =
        [(S "requestBody", ⟨S "request body for the tool", [], []⟩)] := rfl
    have h2 := h (S "requestBody", ⟨S "request body for the tool", [], []⟩)
      (by rw [hgroups]; exact List.mem_singleton.2 rfl)
    exact absurd h2 (by decide)

/-- Claim C1 (amended): the `searchParams` and `pathNames` groups are
present exactly when their accumulated property maps are non-empty (and
when present they carry non-empty property maps), but the `requestBody`
group is present exactly when the request-body descriptor exists with at
least one content entry — even when the flattened property map came out
empty. -/
theorem translate_groups_amended (pfx : Str) (api : APIDesc) :
    (hasGroup (translateOp pfx api) (S "searchParams") = true ↔
      0 < (paramAccOf api).queryProps.length) ∧
    (hasGroup (translateOp pfx api) (S "pathNames") = true ↔
      0 < (paramAccOf api).pathProps.length) ∧
    (hasGroup (translateOp pfx api) (S "requestBody") = true ↔
      (∃ rb, api.requestBody = some rb ∧ 0 < rb.content.length)) ∧
    (∀ g ∈ (translateOp pfx api).groups,
      g.1 = S "searchParams" ∨ g.1 = S "pathNames" → 0 < g.2.properties.length) :=
  ⟨translate_searchParams_iff pfx api, translate_pathNames_iff pfx api,
    translate_requestBody_iff pfx api, translate_props_nonempty pfx api⟩

/-- Witness for the amended C1 at the spec's example operation (one
required path parameter `id`, one optional query parameter `verbose`, no
request body): both parameter groups are present, no `requestBody` group
is, and the present groups have non-empty property maps. -/
theorem translate_groups_amended_witness :
    hasGroup
        (translateOp (S "t")
          ⟨S "getUser", S "", S "", S "GET", S "/users/\x7bid\x7d",
            [⟨S "id", S "path", true, S "", ⟨S "string", S "", none, S "", none, none,
              none, []⟩⟩,
             ⟨S "verbose", S "query", false, S "", ⟨S "boolean", S "", none, S "", none,
              none, none, []⟩⟩],
            none⟩)
        (S "searchParams") = true ∧
    hasGroup
        (translateOp (S "t")
          ⟨S "getUser", S "", S "", S "GET", S "/users/\x7bid\x7d",
            [⟨S "id", S "path", true, S "", ⟨S "string", S "", none, S "", none, none,
              none, []⟩⟩,
             ⟨S "verbose", S "query", false, S "", ⟨S "boolean", S "", none, S "", none,
              none, none, []⟩⟩],
            none⟩)
        (S "requestBody") = false := by
  constructor
  · exact (translate_groups_amended (S "t") _).1.mpr (by decide)
  · have h3 := (translate_groups_amended (S "t")
      ⟨S "getUser", S "", S "", S "GET", S "/users/\x7bid\x7d",
        [⟨S "id", S "path", true, S "", ⟨S "string", S "", none, S "", none, none,
          none, []⟩⟩,
         ⟨S "verbose", S "query", false, S "", ⟨S "boolean", S "", none, S "", none,
          none, none, []⟩⟩],
        none⟩).2.2.1
    cases hg : hasGroup
        (translateOp (S "t")
          ⟨S "getUser", S "", S "", S "GET", S "/users/\x7bid\x7d",
            [⟨S "id", S "path", true, S "", ⟨S "string", S "", none, S "", none, none,
              none, []⟩⟩,
             ⟨S "verbose", S "query", false, S "", ⟨S "boolean", S "", none, S "", none,
              none, none, []⟩⟩],
            none⟩)
        (S "requestBody") with
    | false => rfl
    | true =>
      obtain ⟨rb, hrb, -⟩ := h3.mp hg
      cases hrb

/-- Claim C5 (confirmed): the tool handler propagates each failure of the
URL-parsing, body-marshaling, request-construction, request-execution and
response-reading steps as a text result with the matching `Error ...: `
message and never returns a Go error; on success it returns the response
body as text, regardless of the HTTP status code (swapping in any network
oracle whose responses differ only in status code leaves the result
unchanged). -/

theorem handler_error_propagation (fx : NetFx) (method url : Str)
    (hs : List (Str × Str)) (args : List (Str × GoValue)) :
    ((toolHandler fx method url hs args).2 = none) ∧
    (∀ e, queryPhase fx (classifyParams url args).queryParams
        (substPath url (classifyParams url args).pathParams) = .error e →
      (toolHandler fx method url hs args).1 = .text (S "Error parsing URL: " ++ e)) ∧
    (∀ e u2, queryPhase fx (classifyParams url args).queryParams
        (substPath url (classifyParams url args).pathParams) = .ok u2 →
      bodyPhase fx (classifyParams url args).bodyParams = .error e →
      (toolHandler fx method url hs args).1 =
        .text (S "Error marshaling body parameters: " ++ e)) ∧
    (∀ e u2 rb, queryPhase fx (classifyParams url args).queryParams
        (substPath url (classifyParams url args).pathParams) = .ok u2 →
      bodyPhase fx (classifyParams url args).bodyParams = .ok rb →
      fx.newRequest method u2 rb = .error e →
      (toolHandler fx method url hs args).1 = .text (S "Error creating request: " ++ e)) ∧
    (∀ e u2 rb req, queryPhase fx (classifyParams url args).queryParams
        (substPath url (classifyParams url args).pathParams) = .ok u2 →
      bodyPhase fx (classifyParams url args).bodyParams = .ok rb →
      fx.newRequest method u2 rb = .ok req →
      fx.doRequest (finalizeRequest req rb hs) = .error e →
      (toolHandler fx method url hs args).1 = .text (S "Error executing request: " ++ e)) ∧
    (∀ e u2 rb req resp, queryPhase fx (classifyParams url args).queryParams
        (substPath url (classifyParams url args).pathParams) = .ok u2 →
      bodyPhase fx (classifyParams url args).bodyParams = .ok rb →
      fx.newRequest method u2 rb = .ok req →
      fx.doRequest (finalizeRequest req rb hs) = .ok resp →
      resp.bodyRead = .error e →
      (toolHandler fx method url hs args).1 = .text (S "Error reading response: " ++ e)) ∧
    (∀ u2 rb req resp b, queryPhase fx (classifyParams url args).queryParams
        (substPath url (classifyParams url args).pathParams) = .ok u2 →
      bodyPhase fx (classifyParams url args).bodyParams = .ok rb →
      fx.newRequest method u2 rb = .ok req →
      fx.doRequest (finalizeRequest req rb hs) = .ok resp →
      resp.bodyRead = .ok b →
      (toolHandler fx method url hs args).1 = .text b) ∧
    (∀ g g2 : HttpRequest → Except Str HttpResponse,
      (∀ q, sameBodyRead (g q) (g2 q)) →
      toolHandler { fx with doRequest := g } method url hs args =
        toolHandler { fx with doRequest := g2 } method url hs args) := by
  refine ⟨?_, ?_, ?_, ?_, ?_, ?_, ?_, ?_⟩
  · simp only [toolHandler]
    rcases hq : queryPhase fx (classifyParams url args).queryParams
        (substPath url (classifyParams url args).pathParams) with e | u2
    · rfl
    · dsimp only
      rcases hb : bodyPhase fx (classifyParams url args).bodyParams with e | rb
      · rfl
      · dsimp only
        rcases hn : fx.newRequest method u2 rb with e | req
        · rfl
        · dsimp only
          rcases hd : fx.doRequest (finalizeRequest req rb hs) with e | resp
          · rfl
          · dsimp only
            rcases hr : resp.bodyRead with e | b <;> rfl
  · intro e hq
    simp only [toolHandler, hq]
  · intro e u2 hq hb
    simp only [toolHandler, hq, hb]
  · intro e u2 rb hq hb hn
    simp only [toolHandler, hq, hb, hn]
  · intro e u2 rb req hq hb hn hd
    simp only [toolHandler, hq, hb, hn, hd]
  · intro e u2 rb req resp hq hb hn hd hr
    simp only [toolHandler, hq, hb, hn, hd, hr]
  · intro u2 rb req resp b hq hb hn hd hr
    simp only [toolHandler, hq, hb, hn, hd, hr]
  · intro g g2 hsame
    simp only [toolHandler]
    rw [show queryPhase { fx with doRequest := g } = queryPhase fx from rfl,
      show queryPhase { fx with doRequest := g2 } = queryPhase fx from rfl]
    rcases hq : queryPhase fx (classifyParams url args).queryParams
        (substPath url (classifyParams url args).pathParams) with e | u2
    · rfl
    · dsimp only
      rw [show bodyPhase { fx with doRequest := g } = bodyPhase fx from rfl,
        show bodyPhase { fx with doRequest := g2 } = bodyPhase fx from rfl]
      rcases hb : bodyPhase fx (classifyParams url args).bodyParams with e | rb
      · rfl
      · dsimp only
        rcases hn : fx.newRequest method u2 rb with e | req
        · rfl
        · dsimp only
          have hsr := hsame (finalizeRequest req rb hs)
          rcases hg : g (finalizeRequest req rb hs) with e | resp <;>
            rcases hg2 : g2 (finalizeRequest req rb hs) with e2 | resp2
          · rw [hg, hg2] at hsr
            have he : e = e2 := hsr
            rw [he]
          · rw [hg, hg2] at hsr
            cases hsr
          · rw [hg, hg2] at hsr
            cases hsr
          · rw [hg, hg2] at hsr
            have hread : resp.bodyRead = resp2.bodyRead := hsr
            dsimp only
            rw [hread]

/-- Witness for C5 at a concrete exchange: with no parameters and a
network that answers 404 with body `{"error":"not found"}`, the handler
returns that body as the text result (the status code is never
consulted). -/
theorem handler_error_propagation_witness :
    (toolHandler
      { parseURL := fun _ => Except.error (S "unreachable"),
        marshalBody := fun _ => Except.error (S "unreachable"),
        newRequest := fun m u b =>
          Except.ok { method := m, url := u, body := b, headers := [] },
        doRequest := fun _ =>
          Except.ok { statusCode := 404,
                      bodyRead := Except.ok (S "\x7b\"error\":\"not found\"\x7d") } }
      (S "GET") (S "https://api.example.com/items") [] []).1 =
      ToolResult.text (S "\x7b\"error\":\"not found\"\x7d") := by
  exact (handler_error_propagation _ _ _ _ _).2.2.2.2.2.2.1
    (S "https://api.example.com/items") none
    { method := S "GET", url := S "https://api.example.com/items",
      body := none, headers := [] }
    { statusCode := 404, bodyRead := Except.ok (S "\x7b\"error\":\"not found\"\x7d") }
    (S "\x7b\"error\":\"not found\"\x7d") rfl rfl rfl rfl rfl

